import Mathlib

/-!
Shallow embedding of the Corners game core (move generation, path finding,
win detection, evaluation, and the negamax search engine with its
transposition table) together with proofs about the embedded functions.

Modelling conventions, applied throughout:
* JavaScript numbers holding board coordinates are modelled as `Int`
  (all coordinate arithmetic in the source is integral).
* JavaScript numbers holding evaluation scores are modelled as `ℚ`
  (the evaluator divides by a piece count and multiplies by 0.5).
* JavaScript strings that are manipulated character by character
  (the transposition-table keys) are modelled as `List Char`;
  opaque identifier strings (piece ids) are modelled as `String`.
* JavaScript `Set`s of `"row,col"` keys are modelled as lists of the
  positions themselves; `positionToKey` is injective on integer pairs,
  so membership agrees with the source.
* The recursive jump-chain DFS of the source has no explicit bound; each
  nested call adds one previously unvisited valid board cell to the
  visited set, of which there are 64, so the nesting depth never exceeds
  65.  The embedding makes this explicit with a fuel parameter fixed at
  65, which the completeness proofs below show is never exhausted.
* The search engine's wall-clock time checks are modelled as never
  firing, matching the claims' precondition that the time budget is not
  exceeded during the search.
-/

namespace Corners

set_option maxRecDepth 4000

set_option maxHeartbeats 1000000

/-- The two player identities of `PlayerType` in `models/Player`. -/
inductive Player where
  | A
  | B
deriving DecidableEq, Repr

/-- Opponent of a player, `player === 'A' ? 'B' : 'A'` in the source. -/
def opponent : Player → Player
  | .A => .B
  | .B => .A

/-- A board coordinate, `Position` in `models/Position`. -/
structure Position where
  row : Int
  col : Int
deriving DecidableEq, Repr

/-- A piece, `PieceWithId` in `models/Position`. -/
structure Piece where
  id : String
  player : Player
  row : Int
  col : Int
deriving DecidableEq, Repr

/-- The coordinate a piece currently occupies. -/
def Piece.pos (p : Piece) : Position := ⟨p.row, p.col⟩

/-- The board grid, `Board = Player[][]` (a cell is a player or null). -/
abbrev Board := List (List (Option Player))

/-- The corner shapes of `CORNER_SHAPES` in `constants/gameConfig`:
3×3, 3×4 and 4×4 are the only members of the TypeScript union type. -/
inductive CornerShape where
  | s33
  | s34
  | s44
deriving DecidableEq, Repr

/-- Row count of a corner shape. -/
def CornerShape.rows : CornerShape → Int
  | .s33 => 3
  | .s34 => 3
  | .s44 => 4

/-- Column count of a corner shape. -/
def CornerShape.cols : CornerShape → Int
  | .s33 => 3
  | .s34 => 4
  | .s44 => 4

/-- `GAME_CONFIG.boardSize`. -/
def boardSize : Int := 8

/-- `DIRECTION_ARRAY`: up, down, left, right (in `Object.values` order). -/
def DIRECTION_ARRAY : List (Int × Int) :=
  [(-1, 0), (1, 0), (0, -1), (0, 1)]

/-- `isValidPosition` from `models/Position`. -/
def isValidPosition (row col : Int) : Bool :=
  0 ≤ row && row < boardSize && 0 ≤ col && col < boardSize

/-- `isAdjacentMove` from `models/Position`: one orthogonal step. -/
def isAdjacentMove (a b : Position) : Bool :=
  ((a.row - b.row).natAbs = 1 && (a.col - b.col).natAbs = 0) ||
  ((a.row - b.row).natAbs = 0 && (a.col - b.col).natAbs = 1)

/-- The value of `board[row]?.[col]` seen by the source: `none` when either
index is out of range of the array, `some v` for the stored cell `v`. -/
def cellVal? (board : Board) (row col : Int) : Option (Option Player) :=
  if row < 0 ∨ col < 0 then none
  else (List.get? board row.toNat).bind (fun r => List.get? r col.toNat)

/-- `isCellEmpty` from `models/Board`: `board[row]?.[col] === null`
(an out-of-range access yields `undefined`, which is not `null`). -/
def isCellEmpty (board : Board) (row col : Int) : Bool :=
  cellVal? board row col == some none

/-- `createEmptyBoard` from `models/Board`. -/
def createEmptyBoard : Board :=
  List.replicate 8 (List.replicate 8 (none : Option Player))

/-- Writing `board[row][col] = v` at an in-range coordinate. -/
def setCell (board : Board) (row col : Int) (v : Option Player) : Board :=
  List.set board row.toNat
    (List.set ((List.get? board row.toNat).getD []) col.toNat v)

/-- The midpoint cell of a jump from `p` in direction `d`. -/
def midPos (p : Position) (d : Int × Int) : Position :=
  ⟨p.row + d.1, p.col + d.2⟩

/-- The landing cell of a jump from `p` in direction `d`
(`from.row + dr * 2`, `from.col + dc * 2`). -/
def jumpPos (p : Position) (d : Int × Int) : Position :=
  ⟨p.row + d.1 * 2, p.col + d.2 * 2⟩

/-- The jump-validity test shared by `findJumpMoves` and `searchJumpPath`:
landing in bounds, middle in bounds, middle occupied, landing empty. -/
def jumpOk (board : Board) (p : Position) (d : Int × Int) : Bool :=
  isValidPosition (jumpPos p d).row (jumpPos p d).col &&
  isValidPosition (midPos p d).row (midPos p d).col &&
  !(isCellEmpty board (midPos p d).row (midPos p d).col) &&
  isCellEmpty board (jumpPos p d).row (jumpPos p d).col

/-- State of the move-generation DFS: the `moves` accumulator and the
`visited` set of `getValidMoves`. -/
structure MoveState where
  moves : List Position
  visited : List Position
deriving Repr

/-- One direction of `addAdjacentMoves`: push an in-bounds empty neighbour
that is not yet visited. -/
def adjStep (board : Board) (position : Position) (st : MoveState)
    (d : Int × Int) : MoveState :=
  let newRow := position.row + d.1
  let newCol := position.col + d.2
  if isValidPosition newRow newCol && isCellEmpty board newRow newCol then
    let newPosition : Position := ⟨newRow, newCol⟩
    if newPosition ∈ st.visited then st
    else ⟨st.moves ++ [newPosition], st.visited ++ [newPosition]⟩
  else st

/-- `addAdjacentMoves` from `moveValidation`. -/
def addAdjacentMoves (board : Board) (position : Position)
    (st : MoveState) : MoveState :=
  DIRECTION_ARRAY.foldl (adjStep board position) st

/-- Fuel bound for the jump DFS: one more than the number of board cells.
Each nested call of `findJumpMoves` / `searchJumpPath` adds a fresh valid
cell to `visited`, so the source's recursion never nests deeper. -/
def dfsFuel : Nat := 65

/-- One direction of `findJumpMoves`: on a valid jump to an unvisited
landing, record it and continue the DFS (`rec`) from the landing. -/
def jmStep (board : Board) (rec : Position → MoveState → MoveState)
    (from_ : Position) (st : MoveState) (d : Int × Int) : MoveState :=
  if jumpOk board from_ d then
    let jumpTarget := jumpPos from_ d
    if jumpTarget ∈ st.visited then st
    else rec jumpTarget ⟨st.moves ++ [jumpTarget], st.visited ++ [jumpTarget]⟩
  else st

/-- `findJumpMoves` from `moveValidation`: for each direction, if the jump
is valid and the landing is unvisited, record it and recurse from it.  The
four directions are processed left to right, threading the state. -/
def findJumpMoves (board : Board) : Nat → Position → MoveState → MoveState
  | 0, _, st => st
  | fuel + 1, from_, st =>
    DIRECTION_ARRAY.foldl (jmStep board (findJumpMoves board fuel) from_) st

/-- `getValidMoves` from `moveValidation`: adjacent empty cells plus all
jump-chain landings, found by DFS with a shared visited set. -/
def getValidMoves (board : Board) (position : Position) : List Position :=
  (findJumpMoves board dfsFuel position
    (addAdjacentMoves board position ⟨[], []⟩)).moves

/-- State of `findJumpPath`'s DFS: the accumulated `path` and the
`visited` set (which is never shrunk, while `path` is popped on
backtracking). -/
structure PathState where
  path : List Position
  visited : List Position
deriving Repr

/-- The direction loop inside `searchJumpPath`.  `rec` is the recursive
call at the next nesting depth.  On a valid unvisited jump the landing is
marked visited and pushed; a failed recursive call pops it off the path
(but leaves it visited) before trying the next direction. -/
def sjpLoop (board : Board) (current : Position)
    (rec : Position → PathState → Bool × PathState) :
    List (Int × Int) → PathState → Bool × PathState
  | [], st => (false, st)
  | d :: ds, st =>
    if jumpOk board current d then
      let jumpPosition := jumpPos current d
      if jumpPosition ∈ st.visited then sjpLoop board current rec ds st
      else
        match rec jumpPosition
            ⟨st.path ++ [jumpPosition], st.visited ++ [jumpPosition]⟩ with
        | (true, st2) => (true, st2)
        | (false, st2) => sjpLoop board current rec ds ⟨st2.path.dropLast, st2.visited⟩
    else sjpLoop board current rec ds st

/-- `searchJumpPath` from `pathFinding`: recursive DFS that stops as soon
as the target is reached, backtracking the path on dead ends. -/
def searchJumpPath (board : Board) (target : Position) :
    Nat → Position → PathState → Bool × PathState
  | 0, _, st => (false, st)
  | fuel + 1, current, st =>
    if current = target then (true, st)
    else sjpLoop board current (searchJumpPath board target fuel) DIRECTION_ARRAY st

/-- `findJumpPath` from `pathFinding`: adjacent moves yield the direct
two-point path; otherwise a jump-chain DFS from `from_` recovers the
path, falling back to `[from, to]` if the search fails. -/
def findJumpPath (board : Board) (from_ target : Position) : List Position :=
  if isAdjacentMove from_ target then [from_, target]
  else
    match searchJumpPath board target dfsFuel from_ ⟨[from_], [from_]⟩ with
    | (true, st) => st.path
    | (false, _) => [from_, target]

/-- A half-open integer interval `[lo, hi)` as a list, modelling the
source's `for (let i = lo; i < hi; i++)` loops. -/
def intRange (lo hi : Int) : List Int :=
  (List.range (hi - lo).toNat).map (fun i => lo + Int.ofNat i)

/-- The rectangle bounds returned by `getTargetCorner` in `winCondition`:
player A targets the bottom-right block, player B the top-left block. -/
def getTargetCorner (player : Player) (corner : CornerShape) :
    Int × Int × Int × Int :=
  match player with
  | .A => (boardSize - corner.rows, boardSize, boardSize - corner.cols, boardSize)
  | .B => (0, corner.rows, 0, corner.cols)

/-- `isPlayerInOpponentCorner` from `winCondition`: every cell of the
target corner holds one of the player's pieces. -/
def isPlayerInOpponentCorner (pieces : List Piece) (player : Player)
    (corner : CornerShape) : Bool :=
  let tc := getTargetCorner player corner
  let playerPieces := pieces.filter (fun p => p.player == player)
  (intRange tc.1 tc.2.1).all (fun row =>
    (intRange tc.2.2.1 tc.2.2.2).all (fun col =>
      playerPieces.any (fun piece => piece.row == row && piece.col == col)))

/-- `hasPlayerWon` from `winCondition`. -/
def hasPlayerWon (pieces : List Piece) (player : Player)
    (corner : CornerShape) : Bool :=
  isPlayerInOpponentCorner pieces player corner

/-- The descriptive error thrown by `boardUtils` (class `GameError`),
with the data that the source interpolates into the message. -/
inductive GameError where
  | invalidPosition (row col : Int)
  | cellOccupied (row col : Int)
deriving DecidableEq, Repr

/-- The piece-placing loop of `getBoardFromPieces`: validate the
coordinates, require the cell to be empty, then write the owner. -/
def placePieces : Board → List Piece → Except GameError Board
  | board, [] => .ok board
  | board, piece :: rest =>
    if !isValidPosition piece.row piece.col then
      .error (.invalidPosition piece.row piece.col)
    else if !isCellEmpty board piece.row piece.col then
      .error (.cellOccupied piece.row piece.col)
    else
      placePieces (setCell board piece.row piece.col (some piece.player)) rest

/-- `getBoardFromPieces` from `boardUtils`: build the board matrix from
the piece list, failing fast on an out-of-bounds piece or a collision. -/
def getBoardFromPieces (pieces : List Piece) : Except GameError Board :=
  placePieces createEmptyBoard pieces

/-- Total wrapper used inside the search: `createBoardFromPieces` never
throws on the collision-free piece lists produced by applying a legal
move, so the error branch (which in the source would propagate an
exception out of the search) is totalized with an empty board. -/
def createBoardFromPiecesD (pieces : List Piece) : Board :=
  match getBoardFromPieces pieces with
  | .ok board => board
  | .error _ => createEmptyBoard

/-- `getGoalCornerPositions` from `boardUtils`.  Note that the source
hard-codes a 3×3 block (`boardSize - 3` and `3` literals) independent of
the configured corner shape. -/
def getGoalCornerPositions (player : Player) : List Position :=
  match player with
  | .A =>
    (intRange (boardSize - 3) boardSize).flatMap (fun row =>
      (intRange (boardSize - 3) boardSize).map (fun col => (⟨row, col⟩ : Position)))
  | .B =>
    (intRange 0 3).flatMap (fun row =>
      (intRange 0 3).map (fun col => (⟨row, col⟩ : Position)))

/-- `manhattanDistance` from `evaluation`. -/
def manhattanDistance (x1 y1 x2 y2 : Int) : Int :=
  (x1 - x2).natAbs + (y1 - y2).natAbs

/-- `Math.min(...)` over a list of distances.  Every call site passes the
nonempty list of goal-corner cells, so the empty case (JavaScript's
`Infinity`) is never taken; it is mapped to 0 here. -/
def minDistanceTo (cells : List Position) (row col : Int) : Int :=
  match cells with
  | [] => 0
  | c :: cs =>
    cs.foldl (fun acc c' => min acc (manhattanDistance row col c'.row c'.col))
      (manhattanDistance row col c.row c.col)

/-- `evaluateGoalDistance` from `evaluation`: negative mean of each
piece's minimum Manhattan distance to the (hard-coded 3×3) goal corner. -/
def evaluateGoalDistance (pieces : List Piece) (player : Player) : ℚ :=
  let playerPieces := pieces.filter (fun p => p.player == player)
  let goalPositions := getGoalCornerPositions player
  if playerPieces.length = 0 then 0
  else
    let totalDistance : Int :=
      (playerPieces.map (fun p => minDistanceTo goalPositions p.row p.col)).sum
    let result : ℚ := -(totalDistance : ℚ) / (playerPieces.length : ℚ)
    result

/-- `evaluateAdvancement` from `evaluation`. -/
def evaluateAdvancement (pieces : List Piece) (player : Player) : ℚ :=
  let playerPieces := pieces.filter (fun p => p.player == player)
  let score : Int :=
    (playerPieces.map (fun p =>
      match player with
      | .A => p.row + p.col
      | .B => (boardSize - 1 - p.row) + (boardSize - 1 - p.col))).sum
  (score : ℚ)

/-- `evaluatePiecesInGoal` from `evaluation`: squared count times 100. -/
def evaluatePiecesInGoal (pieces : List Piece) (player : Player) : ℚ :=
  let playerPieces := pieces.filter (fun p => p.player == player)
  let goalPositions := getGoalCornerPositions player
  let piecesInGoal : Nat :=
    (playerPieces.filter (fun p =>
      goalPositions.any (fun g => g.row == p.row && g.col == p.col))).length
  ((piecesInGoal * piecesInGoal * 100 : Nat) : ℚ)

/-- `evaluateMobility` from `evaluation`: total legal destinations × 2. -/
def evaluateMobility (board : Board) (pieces : List Piece) (player : Player) : ℚ :=
  let playerPieces := pieces.filter (fun p => p.player == player)
  let totalMoves : Nat :=
    (playerPieces.map (fun p => (getValidMoves board p.pos).length)).sum
  ((totalMoves * 2 : Nat) : ℚ)

/-- The pair score used by `evaluateClustering`. -/
def clusterPairScore (d : Int) : ℚ :=
  if 2 ≤ d ∧ d ≤ 4 then 5 else if d > 6 then -3 else 0

/-- `evaluateClustering` from `evaluation`: sum over unordered pairs of a
player's pieces of the pair score (`+5` at distance 2..4, `-3` above 6). -/
def evaluateClustering (pieces : List Piece) (player : Player) : ℚ :=
  let playerPieces := pieces.filter (fun p => p.player == player)
  if playerPieces.length ≤ 1 then 0
  else
    ((List.range playerPieces.length).map (fun i =>
      ((List.range playerPieces.length).map (fun j =>
        if i < j then
          match playerPieces.get? i, playerPieces.get? j with
          | some pi_, some pj => clusterPairScore
              (manhattanDistance pi_.row pi_.col pj.row pj.col)
          | _, _ => 0
        else 0)).sum)).sum

/-- `evaluateBlocking` from `evaluation`: +10 for each own piece within
Manhattan distance 3 of the opponent's goal corner. -/
def evaluateBlocking (pieces : List Piece) (player : Player) : ℚ :=
  let playerPieces := pieces.filter (fun p => p.player == player)
  let opponentGoals := getGoalCornerPositions (opponent player)
  ((playerPieces.filter (fun p =>
    minDistanceTo opponentGoals p.row p.col ≤ 3)).length * 10 : Nat)

/-- `evaluatePosition` from `evaluation`: weighted sum of the six
heuristics, each entering as (player value − opponent value) × weight. -/
def evaluatePosition (board : Board) (pieces : List Piece) (player : Player) : ℚ :=
  let opp := opponent player
  (evaluateGoalDistance pieces player - evaluateGoalDistance pieces opp) * 10 +
  (evaluateAdvancement pieces player - evaluateAdvancement pieces opp) * 5 +
  (evaluatePiecesInGoal pieces player - evaluatePiecesInGoal pieces opp) * 1 +
  (evaluateMobility board pieces player - evaluateMobility board pieces opp) * 1 +
  (evaluateClustering pieces player - evaluateClustering pieces opp) * (1/2) +
  (evaluateBlocking pieces player - evaluateBlocking pieces opp) * (1/2)

/-- `quickEvaluateMove` from `evaluation`: cheap move-ordering score. -/
def quickEvaluateMove (fromPos toPos : Position) (player : Player) : Int :=
  let goalRow : Int := match player with | .A => boardSize - 1 | .B => 0
  let goalCol : Int := match player with | .A => boardSize - 1 | .B => 0
  let fromDistance := manhattanDistance fromPos.row fromPos.col goalRow goalCol
  let toDistance := manhattanDistance toPos.row toPos.col goalRow goalCol
  let improvement := fromDistance - toDistance
  let moveDistance := manhattanDistance fromPos.row fromPos.col toPos.row toPos.col
  let jumpBonus : Int := if moveDistance > 1 then 10 else 0
  improvement * 10 + jumpBonus

/-- An entry of `getOrderedMoves`' result (`OrderedMove`). -/
structure OrderedMove where
  piece : Piece
  toPos : Position
  score : Int
deriving DecidableEq, Repr

/-- The move list built by `getOrderedMoves` before sorting. -/
def generateMoves (board : Board) (pieces : List Piece) (player : Player) :
    List OrderedMove :=
  (pieces.filter (fun p => p.player == player)).foldl
    (fun acc piece =>
      acc ++ (getValidMoves board piece.pos).map (fun m =>
        ⟨piece, m, quickEvaluateMove piece.pos m player⟩))
    []

/-- `getOrderedMoves` from `moveOrdering`: all moves of the player's
pieces, stably sorted by quick score descending (JavaScript's stable
`sort` with comparator `b.score - a.score`). -/
def getOrderedMoves (board : Board) (pieces : List Piece) (player : Player) :
    List OrderedMove :=
  List.insertionSort (fun a b => b.score ≤ a.score)
    (generateMoves board pieces player)

/-- `hasAnyValidMoves` from `moveOrdering`: some piece of the player has
at least one destination. -/
def hasAnyValidMoves (board : Board) (pieces : List Piece) (player : Player) : Bool :=
  (pieces.filter (fun p => p.player == player)).any
    (fun p => !(getValidMoves board p.pos).isEmpty)

/-- Decimal digits of a natural number, as the character list of the
JavaScript number-to-string conversion. -/
def natChars (n : Nat) : List Char := Nat.toDigits 10 n

/-- Character list of an integer's decimal representation. -/
def intChars (i : Int) : List Char :=
  if i < 0 then '-' :: natChars (-i).toNat else natChars i.toNat

/-- The character a player contributes to a key string. -/
def playerChar : Player → Char
  | .A => 'A'
  | .B => 'B'

/-- The string `` `${p.player}${p.row}${p.col}` `` built by `getKey`,
for a bare (owner, row, col) triple. -/
def encodeTriple (t : Player × Int × Int) : List Char :=
  playerChar t.1 :: (intChars t.2.1 ++ intChars t.2.2)

/-- The (owner, row, col) triple of a piece. -/
def pieceTriple (p : Piece) : Player × Int × Int := (p.player, p.row, p.col)

/-- Per-piece key string of `TranspositionTable.getKey`. -/
def encodePiece (p : Piece) : List Char := encodeTriple (pieceTriple p)

/-- JavaScript's `Array.prototype.join('|')` on a list of strings. -/
def joinBar : List (List Char) → List Char
  | [] => []
  | [s] => s
  | s :: rest => s ++ '|' :: joinBar rest

/-- `TranspositionTable.getKey`: the per-piece strings, sorted with the
default (code-unit lexicographic, stable) comparator and joined with
`'|'`. -/
def getKey (pieces : List Piece) : List Char :=
  joinBar (List.insertionSort (fun a b : List Char => a ≤ b)
    (pieces.map encodePiece))

/-- `INFINITY` from `AIPlayer`. -/
def INFINITY : ℚ := 999999

/-- `WIN_SCORE` from `AIPlayer`. -/
def WIN_SCORE : ℚ := 100000

/-- Bound type of a transposition-table entry. -/
inductive Flag where
  | exact
  | lowerbound
  | upperbound
deriving DecidableEq, Repr

/-- `AIMove` from `models/AI`. -/
structure AIMove where
  fromPos : Position
  toPos : Position
  score : ℚ
deriving DecidableEq, Repr

/-- `TranspositionEntry` from `models/AI`. -/
structure TTEntry where
  depth : Nat
  score : ℚ
  flag : Flag
  bestMove : Option AIMove
deriving DecidableEq, Repr

/-- The transposition table: key/entry pairs in insertion order,
modelling the iteration order of a JavaScript `Map`. -/
abbrev TransTable := List (List Char × TTEntry)

/-- `TranspositionTable`'s `maxSize` (default 100000). -/
def ttMaxSize : Nat := 100000

/-- The empty transposition table. -/
def ttEmpty : TransTable := []

/-- `TranspositionTable.get`. -/
def ttGet (t : TransTable) (pieces : List Piece) : Option TTEntry :=
  (t.find? (fun kv => kv.1 == getKey pieces)).map (fun kv => kv.2)

/-- `TranspositionTable.set`: evict the oldest entry when full (the
`if (firstKey)` guard skips eviction for a falsy, i.e. empty, key), then
update in place if the key is present, else append — a JavaScript `Map`
keeps the original position of an updated key. -/
def ttSet (t : TransTable) (pieces : List Piece) (entry : TTEntry) : TransTable :=
  let key := getKey pieces
  let t1 :=
    if ttMaxSize ≤ t.length then
      match t with
      | [] => []
      | (k, v) :: rest => if k = [] then (k, v) :: rest else rest
    else t
  if t1.any (fun kv => kv.1 == key) then
    t1.map (fun kv => if kv.1 == key then (kv.1, entry) else kv)
  else t1 ++ [(key, entry)]

/-- `TranspositionTable.clear`. -/
def ttClear (_ : TransTable) : TransTable := []

/-- Outcome of the transposition-table consultation at the top of
`negamax`: either return a score immediately or continue with a
(possibly narrowed) window. -/
inductive ProbeResult where
  | cut (score : ℚ)
  | go (alpha beta : ℚ)
deriving DecidableEq, Repr

/-- The table-lookup section of `negamax`: a stored entry of sufficient
depth either returns immediately (exact flag, or window collapse after
narrowing) or narrows alpha/beta. -/
def ttProbe (t : TransTable) (pieces : List Piece) (depth : Nat)
    (alpha beta : ℚ) : ProbeResult :=
  match ttGet t pieces with
  | none => .go alpha beta
  | some e =>
    if depth ≤ e.depth then
      match e.flag with
      | .exact => .cut e.score
      | .lowerbound =>
        let a := max alpha e.score
        if beta ≤ a then .cut e.score else .go a beta
      | .upperbound =>
        let b := min beta e.score
        if b ≤ alpha then .cut e.score else .go alpha b
    else .go alpha beta

/-- `applyMove` from `AIPlayer`: move the piece with the given id. -/
def applyMove (pieces : List Piece) (pieceId : String)
    (dest : Position) : List Piece :=
  pieces.map (fun p =>
    if p.id == pieceId then { p with row := dest.row, col := dest.col } else p)

/-- The move loop of `negamax`: recurse on each ordered move with the
negated window, track the best score and move, raise alpha, and stop on
a beta cutoff.  `rec` is the depth-reduced recursive search, already
applied to everything but board, pieces, window and table. -/
def negaLoop (pieces : List Piece) (beta : ℚ)
    (rec : Board → List Piece → ℚ → ℚ → TransTable → ℚ × TransTable) :
    List OrderedMove → ℚ → Option AIMove → ℚ → TransTable →
    ℚ × Option AIMove × ℚ × TransTable
  | [], best, bm, alpha, t => (best, bm, alpha, t)
  | m :: ms, best, bm, alpha, t =>
    let newPieces := applyMove pieces m.piece.id m.toPos
    let newBoard := createBoardFromPiecesD newPieces
    let r := rec newBoard newPieces (-beta) (-alpha) t
    let score := -r.1
    let best' := if best < score then score else best
    let bm' := if best < score then some ⟨m.piece.pos, m.toPos, score⟩ else bm
    let alpha' := max alpha best'
    if beta ≤ alpha' then (best', bm', alpha', r.2)
    else negaLoop pieces beta rec ms best' bm' alpha' r.2

/-- The body of `negamax` at a given remaining depth, parameterized by
the recursive call `rec` used for the child searches.  The periodic
wall-clock check is modelled as never firing (the claims below all
assume the time budget is not exceeded). -/
def negamaxStep (shape : CornerShape) (depth : Nat)
    (rec : Board → List Piece → ℚ → ℚ → TransTable → ℚ × TransTable)
    (board : Board) (pieces : List Piece) (alpha beta : ℚ)
    (player : Player) (t : TransTable) : ℚ × TransTable :=
  match ttProbe t pieces depth alpha beta with
  | .cut s => (s, t)
  | .go alpha' beta' =>
    if hasPlayerWon pieces player shape then (WIN_SCORE + depth, t)
    else if hasPlayerWon pieces (opponent player) shape then (-WIN_SCORE - depth, t)
    else if depth = 0 then (evaluatePosition board pieces player, t)
    else if !hasAnyValidMoves board pieces player then (0, t)
    else
      let moves := getOrderedMoves board pieces player
      let r := negaLoop pieces beta' rec moves (-INFINITY) none alpha' t
      let bestScore := r.1
      let flag : Flag :=
        if bestScore ≤ r.2.2.1 then .upperbound
        else if beta' ≤ bestScore then .lowerbound
        else .exact
      (bestScore, ttSet r.2.2.2 pieces ⟨depth, bestScore, flag, r.2.1⟩)

/-- `negamax` from `AIPlayer`, by recursion on the remaining depth.  At
depth 0 the recursive call is unreachable (the depth-zero leaf returns
the evaluator's score first), so a dummy recursion is supplied. -/
def negamax (shape : CornerShape) : Nat →
    Board → List Piece → ℚ → ℚ → Player → TransTable → ℚ × TransTable
  | 0 => fun board pieces alpha beta player t =>
      negamaxStep shape 0 (fun _ _ _ _ t' => (0, t')) board pieces alpha beta player t
  | depth + 1 => fun board pieces alpha beta player t =>
      negamaxStep shape (depth + 1)
        (fun b p a bb t' => negamax shape depth b p a bb (opponent player) t')
        board pieces alpha beta player t

/-- The root move loop of `findBestMove`: every root move is searched
with the full window; the best strict improvement is kept. -/
def rootLoop (shape : CornerShape) (depth : Nat) (pieces : List Piece)
    (player : Player) :
    List OrderedMove → ℚ → Option AIMove → TransTable →
    ℚ × Option AIMove × TransTable
  | [], best, bm, t => (best, bm, t)
  | m :: ms, best, bm, t =>
    let newPieces := applyMove pieces m.piece.id m.toPos
    let newBoard := createBoardFromPiecesD newPieces
    let r := negamax shape (depth - 1) newBoard newPieces (-INFINITY) INFINITY
      (opponent player) t
    let score := -r.1
    let best' := if best < score then score else best
    let bm' := if best < score then some ⟨m.piece.pos, m.toPos, score⟩ else bm
    rootLoop shape depth pieces player ms best' bm' r.2

/-- The iterative-deepening loop of `findBestMove` over the remaining
depths.  An empty move list returns null immediately; a completed depth
updates the best move found, and a winning score stops deepening. -/
def idLoop (shape : CornerShape) (board : Board) (pieces : List Piece)
    (player : Player) :
    List Nat → TransTable → Option AIMove → Option AIMove × TransTable
  | [], t, bmf => (bmf, t)
  | depth :: rest, t, bmf =>
    let moves := getOrderedMoves board pieces player
    if moves.isEmpty then (none, t)
    else
      let r := rootLoop shape depth pieces player moves (-INFINITY) none t
      match r.2.1 with
      | some bm =>
        if WIN_SCORE ≤ r.1 then (some bm, r.2.2)
        else idLoop shape board pieces player rest r.2.2 (some bm)
      | none => idLoop shape board pieces player rest r.2.2 bmf

/-- `findBestMove` from `AIPlayer`: iterative deepening from depth 1 up
to the configured maximum, threading the transposition table, with the
time budget modelled as never exceeded. -/
def findBestMove (maxDepth : Nat) (shape : CornerShape) (board : Board)
    (pieces : List Piece) (player : Player) (t : TransTable) :
    Option AIMove × TransTable :=
  idLoop shape board pieces player (List.range' 1 maxDepth) t none

/-- A single valid jump of the board's jump graph: some direction passes
the `jumpOk` test (middle cell occupied, landing cell in bounds and
empty) and lands on `b`. -/
def jumpEdge (board : Board) (a b : Position) : Prop :=
  ∃ d ∈ DIRECTION_ARRAY, jumpOk board a d = true ∧ b = jumpPos a d

/-- Reachability in the jump graph by a chain of jumps none of whose
landings lies in `visited` (the start may lie in `visited`). -/
inductive ReachAvoid (board : Board) (visited : List Position) :
    Position → Position → Prop
  | refl (a : Position) : ReachAvoid board visited a a
  | step {a b c : Position} : jumpEdge board a b → b ∉ visited →
      ReachAvoid board visited b c → ReachAvoid board visited a c

/-- One legal segment of a move path: an orthogonal step onto an empty
cell, or a single orthogonal jump over an occupied cell onto an empty
cell. -/
def moveStep (board : Board) (a b : Position) : Prop :=
  (isAdjacentMove a b = true ∧ isCellEmpty board b.row b.col = true) ∨
  jumpEdge board a b

/-- Conclusions of the `searchJumpPath` specification for a call on
`current` with state `st` returning `r`: the visited set only grows; a
failed search restores the path, never visits a fresh target, and
leaves every newly visited node (and the current one) with all its jump
edges leading into the final visited set; a successful search extends
the path by a jump chain ending at the target. -/
def sjpConcl (board : Board) (target current : Position) (st : PathState)
    (r : Bool × PathState) : Prop :=
  (∀ v ∈ st.visited, v ∈ r.2.visited) ∧
  (r.1 = false →
    r.2.path = st.path ∧
    (target ∉ st.visited → target ∉ r.2.visited) ∧
    (∀ u, (u = current ∨ (u ∈ r.2.visited ∧ u ∉ st.visited)) →
      ∀ w, jumpEdge board u w → w ∈ r.2.visited)) ∧
  (r.1 = true → ∃ ext, r.2.path = st.path ++ ext ∧
    r.2.path.getLast? = some target ∧
    List.Chain' (jumpEdge board) r.2.path)

/-- Conclusions of the direction loop of `searchJumpPath` over the
remaining directions `ds`. -/
def loopConcl (board : Board) (target current : Position)
    (ds : List (Int × Int)) (st : PathState) (r : Bool × PathState) : Prop :=
  (∀ v ∈ st.visited, v ∈ r.2.visited) ∧
  (r.1 = false →
    r.2.path = st.path ∧
    (target ∉ st.visited → target ∉ r.2.visited) ∧
    (∀ d ∈ ds, jumpOk board current d = true → jumpPos current d ∈ r.2.visited) ∧
    (∀ u, (u ∈ r.2.visited ∧ u ∉ st.visited) →
      ∀ w, jumpEdge board u w → w ∈ r.2.visited)) ∧
  (r.1 = true → ∃ ext, r.2.path = st.path ++ ext ∧
    r.2.path.getLast? = some target ∧
    List.Chain' (jumpEdge board) r.2.path)

/-- All 64 cells of the board, the universe of valid positions. -/
def allValidCells : List Position :=
  (intRange 0 8).flatMap (fun r => (intRange 0 8).map (fun c => ⟨r, c⟩))

/-- Number of valid cells not yet in the visited set; the DFS measure. -/
def freeCount (visited : List Position) : Nat :=
  allValidCells.countP (fun c => decide (c ∉ visited))

/-- The goal rectangle asserted by the specification, parameterized by
the configured corner shape: player A's goal is the bottom-right
rows×cols block, player B's the top-left rows×cols block. -/
def claimGoalRect (player : Player) (shape : CornerShape) (r c : Int) : Prop :=
  match player with
  | .A => boardSize - shape.rows ≤ r ∧ r < boardSize ∧
          boardSize - shape.cols ≤ c ∧ c < boardSize
  | .B => 0 ≤ r ∧ r < shape.rows ∧ 0 ≤ c ∧ c < shape.cols

/-- The cells of the specification's goal rectangle, as a list. -/
def claimGoalCells (shape : CornerShape) (player : Player) : List Position :=
  match player with
  | .A =>
    (intRange (boardSize - shape.rows) boardSize).flatMap (fun r =>
      (intRange (boardSize - shape.cols) boardSize).map (fun c => (⟨r, c⟩ : Position)))
  | .B =>
    (intRange 0 shape.rows).flatMap (fun r =>
      (intRange 0 shape.cols).map (fun c => (⟨r, c⟩ : Position)))

/-- The goal-distance heuristic as worded by the specification: the
negative mean, over the player's pieces, of each piece's minimum
Manhattan distance to the cells of the player's goal rectangle of the
configured corner shape (0 when the player has no pieces). -/
def specGoalDistance (shape : CornerShape) (pieces : List Piece)
    (player : Player) : ℚ :=
  let playerPieces := pieces.filter (fun p => p.player == player)
  if playerPieces.length = 0 then 0
  else
    let totalDistance : Int :=
      (playerPieces.map (fun p =>
        minDistanceTo (claimGoalCells shape player) p.row p.col)).sum
    let result : ℚ := -(totalDistance : ℚ) / (playerPieces.length : ℚ)
    result

/-- Pieces whose coordinates lie on the 8×8 board. -/
def pieceOnBoard (p : Piece) : Prop := isValidPosition p.row p.col = true

/-- The nine pieces of player A exactly filling rows 5–7 × cols 5–7. -/
def winPieces : List Piece :=
  [⟨"w1", .A, 5, 5⟩, ⟨"w2", .A, 5, 6⟩, ⟨"w3", .A, 5, 7⟩,
   ⟨"w4", .A, 6, 5⟩, ⟨"w5", .A, 6, 6⟩, ⟨"w6", .A, 6, 7⟩,
   ⟨"w7", .A, 7, 5⟩, ⟨"w8", .A, 7, 6⟩, ⟨"w9", .A, 7, 7⟩]

/-- Sample position for the path-reconstruction witness: a mover at
(3,3) and an opposing piece at (3,4) to jump over. -/
def jumpPieces : List Piece := [⟨"A-1", .A, 3, 3⟩, ⟨"B-1", .B, 3, 4⟩]

/-- Board of `jumpPieces`. -/
def jumpBoard : Board := createBoardFromPiecesD jumpPieces

/-- Sample two-piece position used for the negamax computations. -/
def negaPieces : List Piece := [⟨"A-1", .A, 0, 0⟩, ⟨"B-1", .B, 7, 7⟩]

/-- Board of `negaPieces`. -/
def negaBoard : Board := createBoardFromPiecesD negaPieces

/-- Sample one-piece position used for the table-dependence computation. -/
def lonePieces : List Piece := [⟨"A-1", .A, 0, 0⟩]

/-- Board of `lonePieces`. -/
def loneBoard : Board := createBoardFromPiecesD lonePieces

/-- A transposition table poisoned with an exact entry for the position
reached by moving the lone piece from (0,0) to (1,0), claiming a huge
score for the side to move there. -/
def poisonTable : TransTable :=
  [(getKey [⟨"A-1", .A, 1, 0⟩], ⟨0, 100000, .exact, none⟩)]

/-- Board of `winPieces`. -/
def winBoard : Board := createBoardFromPiecesD winPieces

/-- A well-formed 8×8 grid. -/
def wellFormed (board : Board) : Prop :=
  board.length = 8 ∧ ∀ row ∈ board, row.length = 8

/-- No two pieces of the list occupy the same cell. -/
def piecesDistinct (pieces : List Piece) : Prop :=
  List.Pairwise (fun p q => ¬(p.row = q.row ∧ p.col = q.col)) pieces

/-- The owner of the piece standing on a cell, if any. -/
def findOwner (pieces : List Piece) (r c : Int) : Option Player :=
  (pieces.find? (fun p => p.row == r && p.col == c)).map (fun p => p.player)

/-- An (owner, row, col) triple whose coordinates lie on the board. -/
def tripleOnBoard (t : Player × Int × Int) : Prop :=
  isValidPosition t.2.1 t.2.2 = true

/-- Sample piece list for the key-equality witness. -/
def keyPiecesL : List Piece := [⟨"p", .A, 0, 0⟩, ⟨"q", .B, 7, 7⟩]

/-- The same position as `keyPiecesL` with other ids and order. -/
def keyPiecesR : List Piece := [⟨"r", .B, 7, 7⟩, ⟨"s", .A, 0, 0⟩]

/-! Membership in integer ranges. -/

theorem mem_intRange {r lo hi : Int} : r ∈ intRange lo hi ↔ lo ≤ r ∧ r < hi := by
  unfold intRange
  rw [List.mem_map]
  constructor
  · rintro ⟨i, hmem, rfl⟩
    rw [List.mem_range] at hmem
    simp only [Int.ofNat_eq_coe]
    omega
  · intro h
    refine ⟨(r - lo).toNat, ?_, ?_⟩
    · rw [List.mem_range]
      omega
    · simp only [Int.ofNat_eq_coe]
      omega

/-- C10.  The evaluation of a position from player A's perspective is
exactly the negation of the evaluation from player B's perspective:
every heuristic enters the total as (player value − opponent value)
times a weight, so the total is zero-sum. -/
theorem evaluatePosition_antisymm (board : Board) (pieces : List Piece) :
    evaluatePosition board pieces .A = -evaluatePosition board pieces .B := by
  simp only [evaluatePosition, opponent]
  ring

/-- C3.  With corner shape 3×4 and a single piece of player A at (0,0),
the goal-distance heuristic of the source computes −10, the distance to
the hard-coded 3×3 bottom-right corner, whereas the specification's
goal rectangle for the configured 3×4 shape (rows 5–7 × cols 4–7) gives
−9: the heuristic ignores the configured corner shape. -/
theorem evaluateGoalDistance_ignores_shape :
    evaluateGoalDistance [⟨"a", .A, 0, 0⟩] .A = -10 ∧
    specGoalDistance .s34 [⟨"a", .A, 0, 0⟩] .A = -9 ∧
    evaluateGoalDistance [⟨"a", .A, 0, 0⟩] .A ≠
      specGoalDistance .s34 [⟨"a", .A, 0, 0⟩] .A := by
  refine ⟨?_, ?_, ?_⟩ <;> with_unfolding_all decide

/-- C5.  `hasPlayerWon` returns true exactly when every cell of the
player's goal rectangle (bottom-right rows×cols block for A, top-left
for B) holds one of the player's pieces; in particular player A's nine
pieces on rows 5–7 × cols 5–7 win under the 3×3 shape, and removing any
one of the nine pieces loses that. -/
theorem hasPlayerWon_iff_goal_filled :
    (∀ (pieces : List Piece) (player : Player) (shape : CornerShape),
      hasPlayerWon pieces player shape = true ↔
        ∀ r c : Int, claimGoalRect player shape r c →
          ∃ p ∈ pieces, p.player = player ∧ p.row = r ∧ p.col = c) ∧
    hasPlayerWon winPieces .A .s33 = true ∧
    (∀ i : Fin 9, hasPlayerWon (winPieces.eraseIdx i) .A .s33 = false) := by
  refine ⟨?_, by decide, by decide⟩
  intro pieces player shape
  cases player <;>
    simp only [hasPlayerWon, isPlayerInOpponentCorner, getTargetCorner,
      claimGoalRect, List.all_eq_true, List.any_eq_true, List.mem_filter,
      mem_intRange, Bool.and_eq_true, beq_iff_eq] <;>
    constructor
  · rintro h r c ⟨h1, h2, h3, h4⟩
    obtain ⟨p, ⟨hp, hpl⟩, hr, hc⟩ := h r ⟨h1, h2⟩ c ⟨h3, h4⟩
    exact ⟨p, hp, hpl, hr, hc⟩
  · rintro h r ⟨h1, h2⟩ c ⟨h3, h4⟩
    obtain ⟨p, hp, hpl, hr, hc⟩ := h r c ⟨h1, h2, h3, h4⟩
    exact ⟨p, ⟨hp, hpl⟩, hr, hc⟩
  · rintro h r c ⟨h1, h2, h3, h4⟩
    obtain ⟨p, ⟨hp, hpl⟩, hr, hc⟩ := h r ⟨h1, h2⟩ c ⟨h3, h4⟩
    exact ⟨p, hp, hpl, hr, hc⟩
  · rintro h r ⟨h1, h2⟩ c ⟨h3, h4⟩
    obtain ⟨p, hp, hpl, hr, hc⟩ := h r c ⟨h1, h2, h3, h4⟩
    exact ⟨p, ⟨hp, hpl⟩, hr, hc⟩

/-! Invariants of the move-generation DFS. -/

theorem foldl_moves_inv {f : MoveState → (Int × Int) → MoveState}
    {P : Position → Prop} :
    ∀ (ds : List (Int × Int)) (st : MoveState),
      (∀ st' d, d ∈ ds → (∀ m ∈ st'.moves, P m) → ∀ m ∈ (f st' d).moves, P m) →
      (∀ m ∈ st.moves, P m) → ∀ m ∈ (ds.foldl f st).moves, P m := by
  intro ds
  induction ds with
  | nil => exact fun st _ hst => hst
  | cons d ds ih =>
    intro st hstep hst
    exact ih (f st d)
      (fun st' d' hd' => hstep st' d' (List.mem_cons_of_mem d hd'))
      (hstep st d (List.mem_cons_self d ds) hst)

/-- Every position the jump DFS adds to `moves` satisfies `P`, provided
the jump step from a `G`-position yields a `P`- and `G`-position. -/
theorem findJumpMoves_inv (board : Board) (P G : Position → Prop)
    (hstep : ∀ q d, G q → d ∈ DIRECTION_ARRAY → jumpOk board q d = true →
      P (jumpPos q d) ∧ G (jumpPos q d)) :
    ∀ (fuel : Nat) (q : Position) (st : MoveState), G q →
      (∀ m ∈ st.moves, P m) →
      ∀ m ∈ (findJumpMoves board fuel q st).moves, P m := by
  intro fuel
  induction fuel with
  | zero => exact fun q st _ hst => hst
  | succ fuel ih =>
    intro q st hq hst
    refine foldl_moves_inv DIRECTION_ARRAY st ?_ hst
    intro st' d hd hst' m hm
    unfold jmStep at hm
    by_cases hok : jumpOk board q d = true
    · rw [if_pos hok] at hm
      by_cases hv : jumpPos q d ∈ st'.visited
      · rw [if_pos hv] at hm
        exact hst' m hm
      · rw [if_neg hv] at hm
        obtain ⟨hP, hG⟩ := hstep q d hq hd hok
        refine ih (jumpPos q d) _ hG ?_ m hm
        intro m' hm'
        rcases List.mem_append.mp hm' with h | h
        · exact hst' m' h
        · rw [List.mem_singleton.mp h]
          exact hP
    · rw [if_neg hok] at hm
      exact hst' m hm

/-- Every position `addAdjacentMoves` adds to `moves` satisfies `P`,
provided every in-bounds empty orthogonal neighbour of `pos` does. -/
theorem addAdjacentMoves_inv (board : Board) (pos : Position) (P : Position → Prop)
    (hstep : ∀ d, d ∈ DIRECTION_ARRAY →
      isValidPosition (pos.row + d.1) (pos.col + d.2) = true →
      isCellEmpty board (pos.row + d.1) (pos.col + d.2) = true →
      P ⟨pos.row + d.1, pos.col + d.2⟩) :
    ∀ (st : MoveState), (∀ m ∈ st.moves, P m) →
      ∀ m ∈ (addAdjacentMoves board pos st).moves, P m := by
  intro st hst
  refine foldl_moves_inv DIRECTION_ARRAY st ?_ hst
  intro st' d hd hst' m hm
  unfold adjStep at hm
  by_cases hc : (isValidPosition (pos.row + d.1) (pos.col + d.2) &&
      isCellEmpty board (pos.row + d.1) (pos.col + d.2)) = true
  · rw [if_pos hc] at hm
    obtain ⟨h1, h2⟩ := Bool.and_eq_true_iff.mp hc
    by_cases hv : (⟨pos.row + d.1, pos.col + d.2⟩ : Position) ∈ st'.visited
    · rw [if_pos hv] at hm
      exact hst' m hm
    · rw [if_neg hv] at hm
      rcases List.mem_append.mp hm with h | h
      · exact hst' m h
      · rw [List.mem_singleton.mp h]
        exact hstep d hd h1 h2
  · rw [if_neg hc] at hm
    exact hst' m hm

/-- The landing cell of a valid jump is empty. -/
theorem jumpOk_empty {board : Board} {q : Position} {d : Int × Int}
    (h : jumpOk board q d = true) :
    isCellEmpty board (jumpPos q d).row (jumpPos q d).col = true := by
  unfold jumpOk at h
  simp only [Bool.and_eq_true] at h
  exact h.2

/-- Every destination produced by `getValidMoves` is an empty cell. -/
theorem getValidMoves_all_empty (board : Board) (pos : Position) :
    ∀ m ∈ getValidMoves board pos, isCellEmpty board m.row m.col = true := by
  unfold getValidMoves
  refine findJumpMoves_inv board
    (fun m => isCellEmpty board m.row m.col = true) (fun _ => True)
    (fun q d _ _ hok => ⟨jumpOk_empty hok, trivial⟩)
    dfsFuel pos _ trivial ?_
  refine addAdjacentMoves_inv board pos _ (fun d _ _ h2 => h2) ⟨[], []⟩ ?_
  intro m hm
  exact absurd hm (List.not_mem_nil m)

/-- C7.  A piece standing on its origin cell can never end a move on
that cell: the origin is occupied, but every destination returned by
`getValidMoves` (adjacent step or jump chain) is an empty cell. -/
theorem getValidMoves_no_self (board : Board) (origin : Position) (pl : Player)
    (h : cellVal? board origin.row origin.col = some (some pl)) :
    origin ∉ getValidMoves board origin := by
  intro hmem
  have he := getValidMoves_all_empty board origin origin hmem
  rw [isCellEmpty, h] at he
  simp at he

/-- Witness for C7 at a concrete board: the piece on (3,3) of
`jumpBoard` cannot move to its own square. -/
theorem getValidMoves_no_self_witness :
    (⟨3, 3⟩ : Position) ∉ getValidMoves jumpBoard ⟨3, 3⟩ :=
  getValidMoves_no_self jumpBoard ⟨3, 3⟩ .A (by decide)

/-! Transposition-table store/lookup lemmas. -/

theorem find?_append_of_none {α : Type} {p : α → Bool} :
    ∀ {l1 : List α} (l2 : List α), l1.find? p = none →
      (l1 ++ l2).find? p = l2.find? p := by
  intro l1
  induction l1 with
  | nil => exact fun l2 _ => rfl
  | cons a l1 ih =>
    intro l2 h
    rw [List.find?_cons] at h
    cases hpa : p a with
    | true => rw [hpa] at h; exact absurd h (by simp)
    | false =>
      rw [hpa] at h
      rw [List.cons_append, List.find?_cons, hpa]
      exact ih l2 h

theorem find?_replace_key (k : List Char) (e : TTEntry) :
    ∀ (l : TransTable), l.any (fun kv => kv.1 == k) = true →
      ((l.map (fun kv => if kv.1 == k then (kv.1, e) else kv)).find?
        (fun kv => kv.1 == k)).map (fun kv => kv.2) = some e := by
  intro l
  induction l with
  | nil => intro h; exact absurd h (by simp)
  | cons kv l ih =>
    intro h
    cases hk : (kv.1 == k) with
    | true =>
      have hif : (if (kv.1 == k) = true then (kv.1, e) else kv) = (kv.1, e) :=
        if_pos hk
      rw [List.map_cons, hif, List.find?_cons]
      simp only [hk]
      rfl
    | false =>
      rw [List.any_cons, hk, Bool.false_or] at h
      simp only [List.map_cons, hk, Bool.false_eq_true, if_false, List.find?_cons]
      exact ih h

/-- Looking up a position right after storing an entry for it yields
exactly that entry. -/
theorem ttGet_ttSet (t : TransTable) (pieces : List Piece) (e : TTEntry) :
    ttGet (ttSet t pieces e) pieces = some e := by
  unfold ttGet ttSet
  set k := getKey pieces with hk
  set t1 : TransTable :=
    (if ttMaxSize ≤ t.length then
      match t with
      | [] => []
      | (k', v) :: rest => if k' = [] then (k', v) :: rest else rest
     else t) with ht1
  cases hany : t1.any (fun kv => kv.1 == k) with
  | true =>
    rw [if_pos hany]
    exact find?_replace_key k e t1 hany
  | false =>
    rw [if_neg (by rw [hany]; exact Bool.false_ne_true)]
    have hnone : t1.find? (fun kv => kv.1 == k) = none := by
      rw [List.find?_eq_none]
      intro x hx hpx
      have : t1.any (fun kv => kv.1 == k) = true := List.any_of_mem hx hpx
      rw [hany] at this
      exact Bool.false_ne_true this
    rw [find?_append_of_none _ hnone]
    simp [List.find?_cons]

/-! The move loop keeps the final alpha at least the best score. -/

theorem negaLoop_best_le_alpha (pieces : List Piece) (beta : ℚ)
    (rec : Board → List Piece → ℚ → ℚ → TransTable → ℚ × TransTable) :
    ∀ (ms : List OrderedMove) (best : ℚ) (bm : Option AIMove) (alpha : ℚ)
      (t : TransTable), (best ≤ alpha ∨ ms ≠ []) →
      (negaLoop pieces beta rec ms best bm alpha t).1 ≤
        (negaLoop pieces beta rec ms best bm alpha t).2.2.1 := by
  intro ms
  induction ms with
  | nil =>
    intro best bm alpha t h
    rcases h with h | h
    · exact h
    · exact absurd rfl h
  | cons m ms ih =>
    intro best bm alpha t _
    show (negaLoop pieces beta rec (m :: ms) best bm alpha t).1 ≤ _
    rw [negaLoop]
    by_cases hcut : beta ≤ max alpha (if best < -(rec
        (createBoardFromPiecesD (applyMove pieces m.piece.id m.toPos))
        (applyMove pieces m.piece.id m.toPos) (-beta) (-alpha) t).1
        then -(rec (createBoardFromPiecesD (applyMove pieces m.piece.id m.toPos))
        (applyMove pieces m.piece.id m.toPos) (-beta) (-alpha) t).1 else best)
    · rw [if_pos hcut]
      exact le_max_right _ _
    · rw [if_neg hcut]
      exact ih _ _ _ _ (Or.inl (le_max_right _ _))

/-! Nonemptiness of the ordered move list. -/

theorem generateMoves_foldl_ne_nil (board : Board) (player : Player) :
    ∀ (l : List Piece) (acc : List OrderedMove),
      ((∃ p ∈ l, getValidMoves board p.pos ≠ []) ∨ acc ≠ []) →
      l.foldl (fun acc piece =>
        acc ++ (getValidMoves board piece.pos).map (fun m =>
          ⟨piece, m, quickEvaluateMove piece.pos m player⟩)) acc ≠ [] := by
  intro l
  induction l with
  | nil =>
    intro acc h
    rcases h with ⟨p, hp, _⟩ | h
    · exact absurd hp (List.not_mem_nil p)
    · exact h
  | cons q l ih =>
    intro acc h
    rw [List.foldl_cons]
    refine ih _ ?_
    rcases h with ⟨p, hp, hne⟩ | hacc
    · rcases List.mem_cons.mp hp with rfl | hpl
      · refine Or.inr ?_
        intro hcontra
        rcases List.append_eq_nil.mp hcontra with ⟨_, hmaps⟩
        exact hne (List.map_eq_nil_iff.mp hmaps)
      · exact Or.inl ⟨p, hpl, hne⟩
    · refine Or.inr ?_
      intro hcontra
      exact hacc (List.append_eq_nil.mp hcontra).1

theorem getOrderedMoves_ne_nil {board : Board} {pieces : List Piece}
    {player : Player} (h : hasAnyValidMoves board pieces player = true) :
    getOrderedMoves board pieces player ≠ [] := by
  unfold hasAnyValidMoves at h
  rw [List.any_eq_true] at h
  obtain ⟨p, hp, hne⟩ := h
  rw [Bool.not_eq_true'] at hne
  have hgen : generateMoves board pieces player ≠ [] := by
    unfold generateMoves
    refine generateMoves_foldl_ne_nil board player _ [] (Or.inl ⟨p, hp, ?_⟩)
    intro hnil
    rw [hnil] at hne
    simp at hne
  intro hsort
  have hperm := List.perm_insertionSort
    (fun a b : OrderedMove => b.score ≤ a.score) (generateMoves board pieces player)
  rw [getOrderedMoves] at hsort
  rw [hsort] at hperm
  exact hgen hperm.nil_eq.symm

/-- C2 (amended).  At every negamax node that reaches its move loop
(no table cutoff, no terminal position, positive depth, at least one
legal move), the entry stored for the current position carries the flag
`upperbound`: the stored condition compares the best score against the
final alpha, which the loop has raised to at least the best score, so
the first branch of the flag computation always fires. -/
theorem negamax_stores_upperbound (shape : CornerShape) (depth : Nat)
    (board : Board) (pieces : List Piece) (alpha beta alpha' beta' : ℚ)
    (player : Player) (t : TransTable)
    (hprobe : ttProbe t pieces depth alpha beta = .go alpha' beta')
    (hw1 : hasPlayerWon pieces player shape = false)
    (hw2 : hasPlayerWon pieces (opponent player) shape = false)
    (hd : depth ≠ 0)
    (hmv : hasAnyValidMoves board pieces player = true) :
    ∃ e, ttGet (negamax shape depth board pieces alpha beta player t).2 pieces
        = some e ∧
      e.flag = .upperbound ∧ e.depth = depth ∧
      e.score = (negamax shape depth board pieces alpha beta player t).1 := by
  cases depth with
  | zero => exact absurd rfl hd
  | succ d =>
    have hstep : negamax shape (d + 1) board pieces alpha beta player t =
        negamaxStep shape (d + 1)
          (fun b p a bb t' => negamax shape d b p a bb (opponent player) t')
          board pieces alpha beta player t := rfl
    rw [hstep]
    unfold negamaxStep
    rw [hprobe]
    dsimp only
    rw [if_neg (by rw [hw1]; exact Bool.false_ne_true)]
    rw [if_neg (by rw [hw2]; exact Bool.false_ne_true)]
    rw [if_neg (Nat.succ_ne_zero d)]
    rw [if_neg (by rw [hmv]; simp)]
    dsimp only
    have hle := negaLoop_best_le_alpha pieces beta'
      (fun b p a bb t' => negamax shape d b p a bb (opponent player) t')
      (getOrderedMoves board pieces player) (-INFINITY) none alpha' t
      (Or.inr (getOrderedMoves_ne_nil hmv))
    rw [if_pos hle]
    exact ⟨_, ttGet_ttSet _ pieces _, rfl, rfl, rfl⟩

/-- Witness for C2 (amended) at a concrete node: searching the two-piece
position at depth 1 with the full window and an empty table reaches the
move loop and stores an upperbound-flagged entry of depth 1. -/
theorem negamax_stores_upperbound_witness :
    ∃ e, ttGet (negamax .s33 1 negaBoard negaPieces
        (-INFINITY) INFINITY .A ttEmpty).2 negaPieces = some e ∧
      e.flag = .upperbound ∧ e.depth = 1 ∧
      e.score = (negamax .s33 1 negaBoard negaPieces
        (-INFINITY) INFINITY .A ttEmpty).1 :=
  negamax_stores_upperbound .s33 1 negaBoard negaPieces
    (-INFINITY) INFINITY (-INFINITY) INFINITY .A ttEmpty
    (by decide) (by decide) (by decide) (by decide) (by decide)

/-- Counterexample to C2 as stated: at the same concrete node the raw
best score 17 lies strictly inside the entry window
(−999999, 999999), so the claim predicts the flag `exact`, yet the
stored entry carries `upperbound`. -/
theorem negamax_flag_claim_counterexample :
    (ttGet (negamax .s33 1 negaBoard negaPieces
        (-INFINITY) INFINITY .A ttEmpty).2 negaPieces).map (fun e => e.flag)
      = some .upperbound ∧
    (negamax .s33 1 negaBoard negaPieces
        (-INFINITY) INFINITY .A ttEmpty).1 = 17 ∧
    -INFINITY < (17 : ℚ) ∧ (17 : ℚ) < INFINITY := by
  refine ⟨?_, ?_, ?_, ?_⟩ <;> with_unfolding_all decide

/-- C6.  When the table probe does not short-circuit (it yields a
continued window), negamax returns the depth-biased win score for a
side to move that has already won, the negated biased score when the
opponent has won, and the neutral score 0 when nobody has won, depth
remains, and the side to move has no legal move. -/
theorem negamax_terminal_cases (shape : CornerShape) (depth : Nat)
    (board : Board) (pieces : List Piece) (alpha beta alpha' beta' : ℚ)
    (player : Player) (t : TransTable)
    (hprobe : ttProbe t pieces depth alpha beta = .go alpha' beta') :
    (hasPlayerWon pieces player shape = true →
      (negamax shape depth board pieces alpha beta player t).1
        = WIN_SCORE + depth) ∧
    (hasPlayerWon pieces player shape = false →
      hasPlayerWon pieces (opponent player) shape = true →
      (negamax shape depth board pieces alpha beta player t).1
        = -WIN_SCORE - depth) ∧
    (hasPlayerWon pieces player shape = false →
      hasPlayerWon pieces (opponent player) shape = false →
      depth ≠ 0 → hasAnyValidMoves board pieces player = false →
      (negamax shape depth board pieces alpha beta player t).1 = 0) := by
  have hstep : ∀ rec, negamaxStep shape depth rec board pieces alpha beta player t
      = negamaxStep shape depth rec board pieces alpha beta player t := fun _ => rfl
  refine ⟨?_, ?_, ?_⟩
  · intro hw
    cases depth with
    | zero =>
      show (negamaxStep shape 0 _ board pieces alpha beta player t).1 = _
      unfold negamaxStep
      rw [hprobe]
      dsimp only
      rw [if_pos hw]
    | succ d =>
      show (negamaxStep shape (d + 1) _ board pieces alpha beta player t).1 = _
      unfold negamaxStep
      rw [hprobe]
      dsimp only
      rw [if_pos hw]
  · intro hw1 hw2
    cases depth with
    | zero =>
      show (negamaxStep shape 0 _ board pieces alpha beta player t).1 = _
      unfold negamaxStep
      rw [hprobe]
      dsimp only
      rw [if_neg (by rw [hw1]; exact Bool.false_ne_true), if_pos hw2]
    | succ d =>
      show (negamaxStep shape (d + 1) _ board pieces alpha beta player t).1 = _
      unfold negamaxStep
      rw [hprobe]
      dsimp only
      rw [if_neg (by rw [hw1]; exact Bool.false_ne_true), if_pos hw2]
  · intro hw1 hw2 hd hmv
    cases depth with
    | zero => exact absurd rfl hd
    | succ d =>
      show (negamaxStep shape (d + 1) _ board pieces alpha beta player t).1 = _
      unfold negamaxStep
      rw [hprobe]
      dsimp only
      rw [if_neg (by rw [hw1]; exact Bool.false_ne_true),
        if_neg (by rw [hw2]; exact Bool.false_ne_true),
        if_neg (Nat.succ_ne_zero d),
        if_pos (by rw [hmv]; rfl)]

/-- Witness for C6: on the won position `winPieces` at depth 2 with an
empty table, negamax returns the win score biased by the remaining
depth, 100002. -/
theorem negamax_terminal_cases_witness :
    (negamax .s33 2 winBoard winPieces (-INFINITY) INFINITY .A ttEmpty).1
      = WIN_SCORE + 2 :=
  (negamax_terminal_cases .s33 2 winBoard winPieces
    (-INFINITY) INFINITY (-INFINITY) INFINITY .A ttEmpty
    (by decide)).1 (by decide)

/-- C4 (amended).  Clearing the cache resets it to the empty table, so
re-running `findBestMove` after `clearCache` returns the same move as a
run that itself started from an empty table — here the first run did,
so the move is reproduced exactly. -/
theorem findBestMove_clear_rerun (maxDepth : Nat) (shape : CornerShape)
    (board : Board) (pieces : List Piece) (player : Player) :
    (findBestMove maxDepth shape board pieces player
      (ttClear (findBestMove maxDepth shape board pieces player ttEmpty).2)).1
    = (findBestMove maxDepth shape board pieces player ttEmpty).1 := rfl

/-- Counterexample to C4 as stated: on the one-piece position, a run
from the empty table and a run from `poisonTable` (which differs only
in initial table contents, holding a fabricated exact entry for one
child position) return different moves. -/
theorem findBestMove_tt_dependence_counterexample :
    (findBestMove 1 .s33 loneBoard lonePieces .A ttEmpty).1.map
        (fun m => m.toPos) ≠
    (findBestMove 1 .s33 loneBoard lonePieces .A poisonTable).1.map
        (fun m => m.toPos) := by
  with_unfolding_all decide

/-! Board construction: cell-level lemmas. -/

theorem get?_set_self {α : Type} :
    ∀ (l : List α) (i : Nat) (v : α), i < l.length →
      (l.set i v).get? i = some v := by
  intro l
  induction l with
  | nil => intro i v h; exact absurd h (Nat.not_lt_zero i)
  | cons a l ih =>
    intro i v h
    cases i with
    | zero => rfl
    | succ i => exact ih i v (Nat.lt_of_succ_lt_succ h)

theorem get?_set_ne {α : Type} :
    ∀ (l : List α) (i j : Nat) (v : α), i ≠ j →
      (l.set i v).get? j = l.get? j := by
  intro l
  induction l with
  | nil => intro i j v _; rfl
  | cons a l ih =>
    intro i j v h
    cases i with
    | zero =>
      cases j with
      | zero => exact absurd rfl h
      | succ j => rfl
    | succ i =>
      cases j with
      | zero => rfl
      | succ j => exact ih i j v (fun hc => h (by rw [hc]))

theorem wellFormed_empty : wellFormed createEmptyBoard := by
  constructor
  · exact List.length_replicate 8 _
  · intro row hrow
    rw [List.eq_of_mem_replicate hrow]
    exact List.length_replicate 8 _

theorem get?_replicate_lt {α : Type} {n i : Nat} (a : α) (h : i < n) :
    (List.replicate n a).get? i = some a := by
  rw [List.get?_eq_get (by rw [List.length_replicate]; omega)]
  rw [List.get_eq_getElem, List.getElem_replicate]

theorem cellVal?_empty {r c : Int} (hr0 : 0 ≤ r) (hr8 : r < 8)
    (hc0 : 0 ≤ c) (hc8 : c < 8) :
    cellVal? createEmptyBoard r c = some none := by
  unfold cellVal? createEmptyBoard
  rw [if_neg (by omega)]
  rw [get?_replicate_lt _ (by omega : r.toNat < 8)]
  rw [Option.some_bind]
  exact get?_replicate_lt _ (by omega : c.toNat < 8)

theorem valid_bounds {r c : Int} (h : isValidPosition r c = true) :
    0 ≤ r ∧ r < 8 ∧ 0 ≤ c ∧ c < 8 := by
  unfold isValidPosition at h
  simp only [Bool.and_eq_true, decide_eq_true_eq, boardSize] at h
  exact ⟨h.1.1.1, h.1.1.2, h.1.2, h.2⟩

theorem isCellEmpty_empty {r c : Int} (h : isValidPosition r c = true) :
    isCellEmpty createEmptyBoard r c = true := by
  obtain ⟨h1, h2, h3, h4⟩ := valid_bounds h
  rw [isCellEmpty, cellVal?_empty h1 h2 h3 h4]
  rfl

theorem row_of_wellFormed {board : Board} (hwf : wellFormed board)
    {i : Nat} (hi : i < 8) :
    ∃ row, board.get? i = some row ∧ row.length = 8 := by
  have hlen : i < board.length := by rw [hwf.1]; exact hi
  refine ⟨board.get ⟨i, hlen⟩, List.get?_eq_get hlen, ?_⟩
  exact hwf.2 _ (List.get_mem board i hlen)

theorem wellFormed_setCell {board : Board} (hwf : wellFormed board)
    {r c : Int} (hr0 : 0 ≤ r) (hr8 : r < 8) (_hc0 : 0 ≤ c) (_hc8 : c < 8)
    (v : Option Player) : wellFormed (setCell board r c v) := by
  obtain ⟨row, hrow, hrowlen⟩ := row_of_wellFormed hwf (i := r.toNat) (by omega)
  constructor
  · rw [setCell, List.length_set, hwf.1]
  · intro x hx
    rcases List.mem_or_eq_of_mem_set hx with h | h
    · exact hwf.2 x h
    · rw [h, hrow]
      simp only [Option.getD_some]
      rw [List.length_set, hrowlen]

theorem cellVal?_setCell_self {board : Board} (hwf : wellFormed board)
    {r c : Int} (hr0 : 0 ≤ r) (hr8 : r < 8) (hc0 : 0 ≤ c) (hc8 : c < 8)
    (v : Option Player) : cellVal? (setCell board r c v) r c = some v := by
  obtain ⟨row, hrow, hrowlen⟩ := row_of_wellFormed hwf (i := r.toNat) (by omega)
  unfold cellVal? setCell
  rw [if_neg (by omega)]
  rw [get?_set_self _ _ _ (by rw [hwf.1]; omega)]
  rw [hrow]
  simp only [Option.getD_some, Option.some_bind]
  rw [get?_set_self _ _ _ (by rw [hrowlen]; omega)]

theorem cellVal?_setCell_ne {board : Board} (hwf : wellFormed board)
    {r c : Int} (hr0 : 0 ≤ r) (hr8 : r < 8) (hc0 : 0 ≤ c) (hc8 : c < 8)
    (v : Option Player) {r' c' : Int} (hne : r' ≠ r ∨ c' ≠ c) :
    cellVal? (setCell board r c v) r' c' = cellVal? board r' c' := by
  obtain ⟨row, hrow, hrowlen⟩ := row_of_wellFormed hwf (i := r.toNat) (by omega)
  unfold cellVal? setCell
  by_cases hneg : r' < 0 ∨ c' < 0
  · rw [if_pos hneg, if_pos hneg]
  · rw [if_neg hneg, if_neg hneg]
    push_neg at hneg
    by_cases hrr : r'.toNat = r.toNat
    · have hre : r' = r := by omega
      have hcc : c' ≠ c := by
        rcases hne with h | h
        · exact absurd hre h
        · exact h
      rw [hrr]
      rw [get?_set_self _ _ _ (by rw [hwf.1]; omega)]
      rw [hrow]
      simp only [Option.getD_some, Option.some_bind]
      exact get?_set_ne _ _ _ _ (by omega)
    · rw [get?_set_ne _ _ _ _ (fun hc => hrr hc.symm)]

/-! Board construction: the placing loop. -/

theorem placePieces_cons_ok {b : Board} {q : Piece} {ps : List Piece} {b' : Board}
    (h : placePieces b (q :: ps) = .ok b') :
    isValidPosition q.row q.col = true ∧ isCellEmpty b q.row q.col = true ∧
    placePieces (setCell b q.row q.col (some q.player)) ps = .ok b' := by
  rw [placePieces] at h
  cases hv : isValidPosition q.row q.col with
  | false =>
    rw [if_pos (by rw [hv]; rfl)] at h
    exact absurd h (by simp)
  | true =>
    rw [if_neg (by rw [hv]; simp)] at h
    cases he : isCellEmpty b q.row q.col with
    | false =>
      rw [if_pos (by rw [he]; rfl)] at h
      exact absurd h (by simp)
    | true =>
      rw [if_neg (by rw [he]; simp)] at h
      exact ⟨rfl, rfl, h⟩

theorem placePieces_cons_eq {b : Board} {q : Piece} (ps : List Piece)
    (hv : isValidPosition q.row q.col = true)
    (he : isCellEmpty b q.row q.col = true) :
    placePieces b (q :: ps) =
      placePieces (setCell b q.row q.col (some q.player)) ps := by
  rw [placePieces]
  rw [if_neg (by rw [hv]; simp)]
  rw [if_neg (by rw [he]; simp)]

theorem placePieces_ok_valid :
    ∀ (ps : List Piece) (b b' : Board), placePieces b ps = .ok b' →
      ∀ p ∈ ps, isValidPosition p.row p.col = true := by
  intro ps
  induction ps with
  | nil => intro b b' _ p hp; exact absurd hp (List.not_mem_nil p)
  | cons q ps ih =>
    intro b b' h p hp
    obtain ⟨hv, _, hrest⟩ := placePieces_cons_ok h
    rcases List.mem_cons.mp hp with rfl | hpl
    · exact hv
    · exact ih _ _ hrest p hpl

theorem placePieces_ok_wf :
    ∀ (ps : List Piece) (b b' : Board), wellFormed b →
      placePieces b ps = .ok b' → wellFormed b' := by
  intro ps
  induction ps with
  | nil =>
    intro b b' hwf h
    rw [placePieces] at h
    cases h
    exact hwf
  | cons q ps ih =>
    intro b b' hwf h
    obtain ⟨hv, _, hrest⟩ := placePieces_cons_ok h
    obtain ⟨h1, h2, h3, h4⟩ := valid_bounds hv
    exact ih _ _ (wellFormed_setCell hwf h1 h2 h3 h4 _) hrest

/-- After placing a piece, emptiness of any cell implies it was empty
before and is not the written cell. -/
theorem isCellEmpty_setCell_rev {b : Board} (hwf : wellFormed b)
    {q : Piece} (hv : isValidPosition q.row q.col = true) {r' c' : Int}
    (h : isCellEmpty (setCell b q.row q.col (some q.player)) r' c' = true) :
    isCellEmpty b r' c' = true ∧ ¬(r' = q.row ∧ c' = q.col) := by
  obtain ⟨h1, h2, h3, h4⟩ := valid_bounds hv
  by_cases hsame : r' = q.row ∧ c' = q.col
  · rw [isCellEmpty, hsame.1, hsame.2,
      cellVal?_setCell_self hwf h1 h2 h3 h4] at h
    simp at h
  · push_neg at hsame
    have hne : r' ≠ q.row ∨ c' ≠ q.col := by
      by_cases hr : r' = q.row
      · exact Or.inr (hsame hr)
      · exact Or.inl hr
    rw [isCellEmpty, cellVal?_setCell_ne hwf h1 h2 h3 h4 _ hne] at h
    refine ⟨h, ?_⟩
    push_neg
    exact hsame

/-- Emptiness is preserved by writing a different cell. -/
theorem isCellEmpty_setCell_fwd {b : Board} (hwf : wellFormed b)
    {q : Piece} (hv : isValidPosition q.row q.col = true) {r' c' : Int}
    (hne : r' ≠ q.row ∨ c' ≠ q.col)
    (h : isCellEmpty b r' c' = true) :
    isCellEmpty (setCell b q.row q.col (some q.player)) r' c' = true := by
  obtain ⟨h1, h2, h3, h4⟩ := valid_bounds hv
  rw [isCellEmpty, cellVal?_setCell_ne hwf h1 h2 h3 h4 _ hne]
  exact h

theorem placePieces_ok_empty_distinct :
    ∀ (ps : List Piece) (b b' : Board), wellFormed b →
      placePieces b ps = .ok b' →
      (∀ p ∈ ps, isCellEmpty b p.row p.col = true) ∧ piecesDistinct ps := by
  intro ps
  induction ps with
  | nil =>
    intro b b' _ _
    exact ⟨fun p hp => absurd hp (List.not_mem_nil p), List.Pairwise.nil⟩
  | cons q ps ih =>
    intro b b' hwf h
    obtain ⟨hv, he, hrest⟩ := placePieces_cons_ok h
    obtain ⟨h1, h2, h3, h4⟩ := valid_bounds hv
    have hwf1 : wellFormed (setCell b q.row q.col (some q.player)) :=
      wellFormed_setCell hwf h1 h2 h3 h4 _
    obtain ⟨hemp1, hdist⟩ := ih _ _ hwf1 hrest
    constructor
    · intro p hp
      rcases List.mem_cons.mp hp with rfl | hpl
      · exact he
      · exact (isCellEmpty_setCell_rev hwf hv (hemp1 p hpl)).1
    · refine List.Pairwise.cons ?_ hdist
      intro p hpl hcontra
      have := (isCellEmpty_setCell_rev hwf hv (hemp1 p hpl)).2
      exact this ⟨hcontra.1.symm, hcontra.2.symm⟩

theorem placePieces_complete :
    ∀ (ps : List Piece) (b : Board), wellFormed b →
      (∀ p ∈ ps, isValidPosition p.row p.col = true) →
      piecesDistinct ps →
      (∀ p ∈ ps, isCellEmpty b p.row p.col = true) →
      ∃ b', placePieces b ps = .ok b' := by
  intro ps
  induction ps with
  | nil => exact fun b _ _ _ _ => ⟨b, rfl⟩
  | cons q ps ih =>
    intro b hwf hval hdist hemp
    have hv := hval q (List.mem_cons_self q ps)
    have he := hemp q (List.mem_cons_self q ps)
    obtain ⟨h1, h2, h3, h4⟩ := valid_bounds hv
    rw [placePieces_cons_eq ps hv he]
    refine ih _ (wellFormed_setCell hwf h1 h2 h3 h4 _)
      (fun p hp => hval p (List.mem_cons_of_mem q hp))
      (List.pairwise_cons.mp hdist).2
      ?_
    intro p hp
    have hqp := (List.pairwise_cons.mp hdist).1 p hp
    refine isCellEmpty_setCell_fwd hwf hv ?_ (hemp p (List.mem_cons_of_mem q hp))
    by_cases hr : p.row = q.row
    · exact Or.inr (fun hc => hqp ⟨hr.symm, hc.symm⟩)
    · exact Or.inl hr

theorem placePieces_cells :
    ∀ (ps : List Piece) (b b' : Board), wellFormed b →
      placePieces b ps = .ok b' →
      ∀ r c : Int, 0 ≤ r → r < 8 → 0 ≤ c → c < 8 →
        cellVal? b' r c =
          (ps.find? (fun p => p.row == r && p.col == c)).elim
            (cellVal? b r c) (fun p => some (some p.player)) := by
  intro ps
  induction ps with
  | nil =>
    intro b b' _ h r c _ _ _ _
    rw [placePieces] at h
    cases h
    rfl
  | cons q ps ih =>
    intro b b' hwf h r c h1 h2 h3 h4
    obtain ⟨hv, he, hrest⟩ := placePieces_cons_ok h
    obtain ⟨hq1, hq2, hq3, hq4⟩ := valid_bounds hv
    have hwf1 : wellFormed (setCell b q.row q.col (some q.player)) :=
      wellFormed_setCell hwf hq1 hq2 hq3 hq4 _
    have hih := ih _ _ hwf1 hrest r c h1 h2 h3 h4
    rw [List.find?_cons]
    cases hq : (q.row == r && q.col == c) with
    | true =>
      simp only [Option.elim_some]
      obtain ⟨hqr, hqc⟩ := Bool.and_eq_true_iff.mp hq
      rw [beq_iff_eq] at hqr hqc
      have hnone : ps.find? (fun p => p.row == r && p.col == c) = none := by
        rw [List.find?_eq_none]
        intro p hp hpred
        obtain ⟨hpr, hpc⟩ := Bool.and_eq_true_iff.mp hpred
        rw [beq_iff_eq] at hpr hpc
        have hemp1 := (placePieces_ok_empty_distinct ps _ _ hwf1 hrest).1 p hp
        have := (isCellEmpty_setCell_rev hwf hv hemp1).2
        exact this ⟨by rw [hpr, hqr], by rw [hpc, hqc]⟩
      rw [hnone] at hih
      simp only [Option.elim_none] at hih
      rw [hih, ← hqr, ← hqc]
      exact cellVal?_setCell_self hwf hq1 hq2 hq3 hq4 _
    | false =>
      cases hfind : ps.find? (fun p => p.row == r && p.col == c) with
      | some p =>
        rw [hfind] at hih
        simp only [Option.elim_some] at hih ⊢
        exact hih
      | none =>
        rw [hfind] at hih
        simp only [Option.elim_none] at hih ⊢
        rw [hih]
        refine cellVal?_setCell_ne hwf hq1 hq2 hq3 hq4 _ ?_
        rcases Bool.and_eq_false_iff.mp hq with hq' | hq'
        · exact Or.inl (fun hc => (beq_eq_false_iff_ne.mp hq') hc.symm)
        · exact Or.inr (fun hc => (beq_eq_false_iff_ne.mp hq') hc.symm)

/-- C8.  Building a board from a piece list fails with a descriptive
`GameError` exactly when some piece lies outside the 8×8 board or two
pieces occupy the same cell; otherwise the resulting board holds each
piece's owner at its position and is empty everywhere else — no invalid
piece is silently dropped or corrected. -/
theorem getBoardFromPieces_correct (ps : List Piece) :
    ((∃ e, getBoardFromPieces ps = .error e) ↔
      ¬((∀ p ∈ ps, isValidPosition p.row p.col = true) ∧ piecesDistinct ps)) ∧
    (∀ b, getBoardFromPieces ps = .ok b →
      ∀ r c : Int, 0 ≤ r → r < 8 → 0 ≤ c → c < 8 →
        cellVal? b r c = some (findOwner ps r c)) := by
  constructor
  · constructor
    · rintro ⟨e, he⟩ hok
      obtain ⟨b', hb'⟩ := placePieces_complete ps createEmptyBoard
        wellFormed_empty hok.1 hok.2
        (fun p hp => isCellEmpty_empty (hok.1 p hp))
      rw [getBoardFromPieces, hb'] at he
      exact absurd he (by simp)
    · intro hnot
      cases hx : getBoardFromPieces ps with
      | error e => exact ⟨e, rfl⟩
      | ok b' =>
        exact absurd ⟨placePieces_ok_valid ps _ _ hx,
          (placePieces_ok_empty_distinct ps _ _ wellFormed_empty hx).2⟩ hnot
  · intro b hb r c h1 h2 h3 h4
    have hcells := placePieces_cells ps createEmptyBoard b wellFormed_empty hb
      r c h1 h2 h3 h4
    rw [hcells, cellVal?_empty h1 h2 h3 h4, findOwner]
    cases ps.find? (fun p => p.row == r && p.col == c) with
    | none => rfl
    | some p => rfl

/-- Witness for C8 at a concrete piece list: the board built from
`jumpPieces` holds the owner recorded for cell (3,4). -/
theorem getBoardFromPieces_correct_witness :
    cellVal? jumpBoard 3 4 = some (findOwner jumpPieces 3 4) :=
  (getBoardFromPieces_correct jumpPieces).2 jumpBoard (by rfl) 3 4
    (by decide) (by decide) (by decide) (by decide)

/-! Key encoding: digits, injectivity, join. -/

theorem intChars_small : ∀ (r : Int), 0 ≤ r → r < 8 →
    intChars r = [Char.ofNat (48 + r.toNat)] := by
  intro r h0 h8
  interval_cases r <;> decide

theorem digit_ne_bar : ∀ k : Nat, k < 8 → Char.ofNat (48 + k) ≠ '|' := by
  decide

theorem digit_inj : ∀ k1 : Nat, k1 < 8 → ∀ k2 : Nat, k2 < 8 →
    Char.ofNat (48 + k1) = Char.ofNat (48 + k2) → k1 = k2 := by
  decide

theorem encodeTriple_shape {t : Player × Int × Int} (h : tripleOnBoard t) :
    encodeTriple t =
      [playerChar t.1, Char.ofNat (48 + t.2.1.toNat), Char.ofNat (48 + t.2.2.toNat)] := by
  obtain ⟨h1, h2, h3, h4⟩ := valid_bounds h
  rw [encodeTriple, intChars_small _ h1 h2, intChars_small _ h3 h4]
  rfl

theorem encodeTriple_len_bar {t : Player × Int × Int} (h : tripleOnBoard t) :
    (encodeTriple t).length = 3 ∧ '|' ∉ encodeTriple t := by
  obtain ⟨h1, h2, h3, h4⟩ := valid_bounds h
  rw [encodeTriple_shape h]
  refine ⟨rfl, ?_⟩
  intro hmem
  rcases List.mem_cons.mp hmem with hc | hmem
  · cases ht : t.1 <;> rw [ht] at hc <;> exact absurd hc (by decide)
  rcases List.mem_cons.mp hmem with hc | hmem
  · exact digit_ne_bar t.2.1.toNat (by omega) hc.symm
  rcases List.mem_cons.mp hmem with hc | hmem
  · exact digit_ne_bar t.2.2.toNat (by omega) hc.symm
  · exact absurd hmem (List.not_mem_nil _)

theorem playerChar_inj {a b : Player} (h : playerChar a = playerChar b) :
    a = b := by
  cases a <;> cases b <;> first | rfl | exact absurd h (by decide)

theorem encodeTriple_inj {t1 t2 : Player × Int × Int}
    (h1 : tripleOnBoard t1) (h2 : tripleOnBoard t2)
    (he : encodeTriple t1 = encodeTriple t2) : t1 = t2 := by
  obtain ⟨ha1, ha2, ha3, ha4⟩ := valid_bounds h1
  obtain ⟨hb1, hb2, hb3, hb4⟩ := valid_bounds h2
  rw [encodeTriple_shape h1, encodeTriple_shape h2] at he
  simp only [List.cons_eq_cons, and_true] at he
  obtain ⟨hp, hr, hc⟩ := he
  have hpe : t1.1 = t2.1 := playerChar_inj hp
  have hre : t1.2.1 = t2.2.1 := by
    have := digit_inj t1.2.1.toNat (by omega) t2.2.1.toNat (by omega) hr
    omega
  have hce : t1.2.2 = t2.2.2 := by
    have := digit_inj t1.2.2.toNat (by omega) t2.2.2.toNat (by omega) hc
    omega
  obtain ⟨x1, y1, z1⟩ := t1
  obtain ⟨x2, y2, z2⟩ := t2
  simp only at hpe hre hce
  rw [hpe, hre, hce]

theorem joinBar_cons_ne_nil {s : List Char} {r : List (List Char)}
    (hs : s.length = 3) : joinBar (s :: r) ≠ [] := by
  cases r with
  | nil =>
    intro h
    have h' : s = [] := h
    rw [h'] at hs
    exact absurd hs (by decide)
  | cons t r =>
    intro h
    have h' : s ++ '|' :: joinBar (t :: r) = [] := h
    rcases List.append_eq_nil.mp h' with ⟨hsn, _⟩
    rw [hsn] at hs
    exact absurd hs (by decide)

theorem joinBar_inj :
    ∀ (l1 l2 : List (List Char)),
      (∀ s ∈ l1, s.length = 3 ∧ '|' ∉ s) →
      (∀ s ∈ l2, s.length = 3 ∧ '|' ∉ s) →
      joinBar l1 = joinBar l2 → l1 = l2 := by
  intro l1
  induction l1 with
  | nil =>
    intro l2 _ hl2 h
    cases l2 with
    | nil => rfl
    | cons t r2 =>
      exact absurd h.symm
        (joinBar_cons_ne_nil (hl2 t (List.mem_cons_self t r2)).1)
  | cons s r1 ih =>
    intro l2 hl1 hl2 h
    cases l2 with
    | nil =>
      exact absurd h (joinBar_cons_ne_nil (hl1 s (List.mem_cons_self s r1)).1)
    | cons t r2 =>
      have hs3 := (hl1 s (List.mem_cons_self s r1)).1
      have ht3 := (hl2 t (List.mem_cons_self t r2)).1
      cases r1 with
      | nil =>
        cases r2 with
        | nil =>
          have h' : s = t := h
          rw [h']
        | cons t2 r2' =>
          have h' : s = t ++ '|' :: joinBar (t2 :: r2') := h
          have hlen := congrArg List.length h'
          rw [List.length_append] at hlen
          simp only [List.length_cons] at hlen
          omega
      | cons s2 r1' =>
        cases r2 with
        | nil =>
          have h' : s ++ '|' :: joinBar (s2 :: r1') = t := h
          have hlen := congrArg List.length h'
          rw [List.length_append] at hlen
          simp only [List.length_cons] at hlen
          omega
        | cons t2 r2' =>
          have h' : s ++ '|' :: joinBar (s2 :: r1')
              = t ++ '|' :: joinBar (t2 :: r2') := h
          obtain ⟨hst, htail⟩ := List.append_inj h' (by omega)
          obtain ⟨_, hjoin⟩ := List.cons_eq_cons.mp htail
          have hrest := ih (t2 :: r2')
            (fun x hx => hl1 x (List.mem_cons_of_mem s hx))
            (fun x hx => hl2 x (List.mem_cons_of_mem t hx))
            hjoin
          rw [hst, hrest]

theorem triples_perm_of_encoded {l1 l2 : List (Player × Int × Int)}
    (h1 : ∀ x ∈ l1, tripleOnBoard x) (h2 : ∀ x ∈ l2, tripleOnBoard x)
    (hp : (l1.map encodeTriple).Perm (l2.map encodeTriple)) :
    l1.Perm l2 := by
  have hm : (Multiset.map encodeTriple (l1 : Multiset (Player × Int × Int)))
      = Multiset.map encodeTriple (l2 : Multiset (Player × Int × Int)) := by
    rw [Multiset.map_coe, Multiset.map_coe]
    exact Multiset.coe_eq_coe.mpr hp
  have hinj1 : Set.InjOn encodeTriple
      { x | x ∈ (l1 : Multiset (Player × Int × Int)) } := by
    intro x hx y hy he
    exact encodeTriple_inj (h1 x (Multiset.mem_coe.mp hx))
      (h1 y (Multiset.mem_coe.mp hy)) he
  have hinj2 : Set.InjOn encodeTriple
      { x | x ∈ (l2 : Multiset (Player × Int × Int)) } := by
    intro x hx y hy he
    exact encodeTriple_inj (h2 x (Multiset.mem_coe.mp hx))
      (h2 y (Multiset.mem_coe.mp hy)) he
  have hcount0 : ∀ (l : List (Player × Int × Int)),
      (∀ x ∈ l, tripleOnBoard x) → ∀ a, tripleOnBoard a → a ∉ l →
      Multiset.count (encodeTriple a)
        (Multiset.map encodeTriple (l : Multiset (Player × Int × Int))) = 0 := by
    intro l hl a hab hal
    rw [Multiset.count_eq_zero]
    intro hmem
    obtain ⟨y, hy, hye⟩ := Multiset.mem_map.mp hmem
    have hyl := Multiset.mem_coe.mp hy
    rw [encodeTriple_inj (hl y hyl) hab hye] at hyl
    exact hal hyl
  refine Multiset.coe_eq_coe.mp (Multiset.ext.mpr ?_)
  intro a
  by_cases ha1 : a ∈ l1
  · have hab : tripleOnBoard a := h1 a ha1
    have e1 := Multiset.count_map_eq_count encodeTriple _ hinj1 a
      (Multiset.mem_coe.mpr ha1)
    by_cases ha2 : a ∈ l2
    · have e2 := Multiset.count_map_eq_count encodeTriple _ hinj2 a
        (Multiset.mem_coe.mpr ha2)
      rw [← e1, ← e2, hm]
    · rw [← e1, hm, hcount0 l2 h2 a hab ha2,
        Multiset.count_eq_zero.mpr (fun hc => ha2 (Multiset.mem_coe.mp hc))]
  · by_cases ha2 : a ∈ l2
    · have hab : tripleOnBoard a := h2 a ha2
      have e2 := Multiset.count_map_eq_count encodeTriple _ hinj2 a
        (Multiset.mem_coe.mpr ha2)
      rw [← e2, ← hm, hcount0 l1 h1 a hab ha1,
        Multiset.count_eq_zero.mpr (fun hc => ha1 (Multiset.mem_coe.mp hc))]
    · rw [Multiset.count_eq_zero.mpr (fun hc => ha1 (Multiset.mem_coe.mp hc)),
        Multiset.count_eq_zero.mpr (fun hc => ha2 (Multiset.mem_coe.mp hc))]

/-- C9 (amended).  For piece lists whose coordinates all lie on the 8×8
board (so every row and column is a single decimal digit), the
transposition-table keys of two lists are equal exactly when the lists
have the same multiset of (owner, row, col) triples: sorting the
per-piece strings makes the key order- and id-invariant, and on-board
triples encode injectively into three-character, bar-free strings. -/
theorem getKey_eq_iff (ps qs : List Piece)
    (hps : ∀ p ∈ ps, pieceOnBoard p) (hqs : ∀ q ∈ qs, pieceOnBoard q) :
    getKey ps = getKey qs ↔
      (ps.map pieceTriple).Perm (qs.map pieceTriple) := by
  have hmap1 : ps.map encodePiece = (ps.map pieceTriple).map encodeTriple := by
    rw [List.map_map]
    rfl
  have hmap2 : qs.map encodePiece = (qs.map pieceTriple).map encodeTriple := by
    rw [List.map_map]
    rfl
  have hS1 := List.perm_insertionSort (fun a b : List Char => a ≤ b)
    (ps.map encodePiece)
  have hS2 := List.perm_insertionSort (fun a b : List Char => a ≤ b)
    (qs.map encodePiece)
  have hcond1 : ∀ s ∈ List.insertionSort (fun a b : List Char => a ≤ b)
      (ps.map encodePiece), s.length = 3 ∧ '|' ∉ s := by
    intro s hs
    obtain ⟨p, hp, rfl⟩ := List.mem_map.mp (hS1.mem_iff.mp hs)
    exact encodeTriple_len_bar (hps p hp)
  have hcond2 : ∀ s ∈ List.insertionSort (fun a b : List Char => a ≤ b)
      (qs.map encodePiece), s.length = 3 ∧ '|' ∉ s := by
    intro s hs
    obtain ⟨q, hq, rfl⟩ := List.mem_map.mp (hS2.mem_iff.mp hs)
    exact encodeTriple_len_bar (hqs q hq)
  constructor
  · intro h
    have hSeq := joinBar_inj _ _ hcond1 hcond2 h
    have hencp : (ps.map encodePiece).Perm (qs.map encodePiece) :=
      hS1.symm.trans (hSeq ▸ hS2)
    rw [hmap1, hmap2] at hencp
    refine triples_perm_of_encoded ?_ ?_ hencp
    · intro x hx
      obtain ⟨p, hp, rfl⟩ := List.mem_map.mp hx
      exact hps p hp
    · intro x hx
      obtain ⟨q, hq, rfl⟩ := List.mem_map.mp hx
      exact hqs q hq
  · intro hperm
    have hencp : (ps.map encodePiece).Perm (qs.map encodePiece) := by
      rw [hmap1, hmap2]
      exact hperm.map encodeTriple
    have heq : List.insertionSort (fun a b : List Char => a ≤ b)
        (ps.map encodePiece)
        = List.insertionSort (fun a b : List Char => a ≤ b)
          (qs.map encodePiece) :=
      List.eq_of_perm_of_sorted (hS1.trans (hencp.trans hS2.symm))
        (List.sorted_insertionSort _ _) (List.sorted_insertionSort _ _)
    rw [getKey, getKey, heq]

/-- Witness for C9 (amended): two orderings of the same on-board
position with different piece ids receive the same key. -/
theorem getKey_eq_iff_witness : getKey keyPiecesL = getKey keyPiecesR :=
  (getKey_eq_iff keyPiecesL keyPiecesR
    (by simp only [pieceOnBoard]; decide)
    (by simp only [pieceOnBoard]; decide)).mpr (by decide)

/-- Counterexample to C9 as stated: without the on-board restriction the
separators-free concatenation is ambiguous — (A,1,23) and (A,12,3) both
encode to the string A123, so two piece lists with different triple
multisets receive equal keys. -/
theorem getKey_collision_counterexample :
    getKey [⟨"x", .A, 1, 23⟩] = getKey [⟨"y", .A, 12, 3⟩] ∧
    ¬ (([(⟨"x", .A, 1, 23⟩ : Piece)].map pieceTriple).Perm
        ([(⟨"y", .A, 12, 3⟩ : Piece)].map pieceTriple)) := by
  constructor
  · decide
  · decide

/-! Jump-graph reachability and the DFS measure. -/

theorem ReachAvoid.snoc {board : Board} {v : List Position} :
    ∀ {a b c : Position}, ReachAvoid board v a b → jumpEdge board b c →
      c ∉ v → ReachAvoid board v a c := by
  intro a b c h
  induction h with
  | refl x => exact fun he hc => ReachAvoid.step he hc (ReachAvoid.refl c)
  | step he' hb' _ ih => exact fun he hc => ReachAvoid.step he' hb' (ih he hc)

/-- The landing cell of a valid jump is a valid board position. -/
theorem jumpOk_valid {board : Board} {q : Position} {d : Int × Int}
    (h : jumpOk board q d = true) :
    isValidPosition (jumpPos q d).row (jumpPos q d).col = true := by
  unfold jumpOk at h
  simp only [Bool.and_eq_true] at h
  exact h.1.1.1

/-- Each direction step from a position is an adjacent move. -/
theorem adjStep_isAdjacent (pos : Position) (d : Int × Int)
    (hd : d ∈ DIRECTION_ARRAY) :
    isAdjacentMove pos ⟨pos.row + d.1, pos.col + d.2⟩ = true := by
  fin_cases hd <;>
    simp only [isAdjacentMove, Bool.or_eq_true, Bool.and_eq_true,
      decide_eq_true_eq] <;>
    omega

theorem mem_allValidCells {p : Position} :
    p ∈ allValidCells ↔ isValidPosition p.row p.col = true := by
  unfold allValidCells isValidPosition
  simp only [List.mem_flatMap, List.mem_map, mem_intRange,
    Bool.and_eq_true, decide_eq_true_eq, boardSize]
  constructor
  · rintro ⟨r, hr, c, hc, rfl⟩
    exact ⟨⟨⟨hr.1, hr.2⟩, hc.1⟩, hc.2⟩
  · intro h
    exact ⟨p.row, ⟨h.1.1.1, h.1.1.2⟩, p.col, ⟨h.1.2, h.2⟩, rfl⟩

theorem freeCount_le_of_subset {v1 v2 : List Position}
    (h : ∀ x ∈ v1, x ∈ v2) : freeCount v2 ≤ freeCount v1 := by
  refine List.countP_mono_left ?_
  intro x _ hx
  simp only [decide_eq_true_eq] at hx ⊢
  exact fun hmem => hx (h x hmem)

theorem countP_lt_of_witness {α : Type} :
    ∀ (l : List α) (p q : α → Bool),
      (∀ x ∈ l, p x = true → q x = true) →
      ∀ x0 ∈ l, p x0 = false → q x0 = true →
        l.countP p < l.countP q := by
  intro l
  induction l with
  | nil => intro p q _ x0 hx0; exact absurd hx0 (List.not_mem_nil x0)
  | cons y l ih =>
    intro p q hpq x0 hx0 hp hq
    rw [List.countP_cons, List.countP_cons]
    rcases List.mem_cons.mp hx0 with rfl | hx0l
    · rw [hp, hq, if_neg (by simp), if_pos rfl]
      have hle := List.countP_mono_left
        (fun x hx => hpq x (List.mem_cons_of_mem x0 hx)) (l := l)
      omega
    · have hlt := ih p q (fun x hx => hpq x (List.mem_cons_of_mem y hx))
        x0 hx0l hp hq
      cases hpy : p y with
      | true =>
        rw [hpq y (List.mem_cons_self y l) hpy]
        omega
      | false =>
        cases q y <;> simp <;> omega

theorem freeCount_lt_append {v : List Position} {p : Position}
    (hval : isValidPosition p.row p.col = true) (hnot : p ∉ v) :
    freeCount (v ++ [p]) < freeCount v := by
  refine countP_lt_of_witness allValidCells _ _ ?_ p
    (mem_allValidCells.mpr hval) ?_ ?_
  · intro x _ hx
    simp only [decide_eq_true_eq, List.mem_append] at hx ⊢
    exact fun hmem => hx (Or.inl hmem)
  · simp
  · simp only [decide_eq_true_eq]
    exact hnot

theorem freeCount_le_card (v : List Position) : freeCount v ≤ 64 := by
  have h := List.countP_le_length (fun c => decide (c ∉ v)) (l := allValidCells)
  have hlen : allValidCells.length = 64 := by decide
  rw [hlen] at h
  exact h

/-- Arriving at the target with fuel remaining succeeds immediately. -/
theorem searchJumpPath_at_target {board : Board} {target : Position}
    {fuel : Nat} (h : 1 ≤ fuel) (st : PathState) :
    searchJumpPath board target fuel target st = (true, st) := by
  cases fuel with
  | zero => omega
  | succ fuel =>
    rw [searchJumpPath]
    rw [if_pos rfl]

/-- Every destination of `getValidMoves` on an occupied origin is an
adjacent cell or jump-reachable from the origin avoiding the origin. -/
theorem getValidMoves_adj_or_reach (board : Board) (origin : Position)
    (pl : Player)
    (hocc : cellVal? board origin.row origin.col = some (some pl)) :
    ∀ m ∈ getValidMoves board origin,
      isAdjacentMove origin m = true ∨ ReachAvoid board [origin] origin m := by
  have hocc' : isCellEmpty board origin.row origin.col = false := by
    rw [isCellEmpty, hocc]
    rfl
  unfold getValidMoves
  refine findJumpMoves_inv board
    (fun m => isAdjacentMove origin m = true ∨ ReachAvoid board [origin] origin m)
    (ReachAvoid board [origin] origin) ?_ dfsFuel origin _
    (ReachAvoid.refl origin) ?_
  · intro q d hq hd hok
    have hempty := jumpOk_empty hok
    have hnotin : jumpPos q d ∉ ([origin] : List Position) := by
      intro hmem
      rw [List.mem_singleton] at hmem
      rw [hmem] at hempty
      rw [hempty] at hocc'
      exact Bool.true_eq_false.mp hocc'
    have hedge : jumpEdge board q (jumpPos q d) := ⟨d, hd, hok, rfl⟩
    exact ⟨Or.inr (hq.snoc hedge hnotin), hq.snoc hedge hnotin⟩
  · refine addAdjacentMoves_inv board origin _
      (fun d hd _ _ => Or.inl (adjStep_isAdjacent origin d hd)) ⟨[], []⟩ ?_
    intro m hm
    exact absurd hm (List.not_mem_nil m)

theorem sjpLoop_spec (board : Board) (target : Position) (fuel : Nat)
    (hrec : ∀ (c : Position) (st : PathState),
      c ∈ st.visited → 1 + freeCount st.visited ≤ fuel →
      st.path ≠ [] → st.path.getLast? = some c →
      List.Chain' (jumpEdge board) st.path →
      sjpConcl board target c st (searchJumpPath board target fuel c st)) :
    ∀ (ds : List (Int × Int)) (current : Position) (st : PathState),
      (∀ d ∈ ds, d ∈ DIRECTION_ARRAY) →
      current ∈ st.visited →
      freeCount st.visited ≤ fuel →
      st.path ≠ [] → st.path.getLast? = some current →
      List.Chain' (jumpEdge board) st.path →
      loopConcl board target current ds st
        (sjpLoop board current (searchJumpPath board target fuel) ds st) := by
  intro ds
  induction ds with
  | nil =>
    intro current st _ _ _ _ _ _
    refine ⟨fun v hv => hv, ?_, ?_⟩
    · intro _
      refine ⟨rfl, fun ht => ht, fun d hd => absurd hd (List.not_mem_nil d), ?_⟩
      intro u hu
      exact absurd hu.1 hu.2
    · intro h
      exact absurd h (by simp [sjpLoop])
  | cons d ds ih =>
    intro current st hds hcur hfuel hpne hplast hpchain
    have hdDA : d ∈ DIRECTION_ARRAY := hds d (List.mem_cons_self d ds)
    have hds' : ∀ d' ∈ ds, d' ∈ DIRECTION_ARRAY :=
      fun d' hd' => hds d' (List.mem_cons_of_mem d hd')
    rw [sjpLoop]
    cases hok : jumpOk board current d with
    | false =>
      rw [if_neg (by simp)]
      have hloop := ih current st hds' hcur hfuel hpne hplast hpchain
      refine ⟨hloop.1, ?_, hloop.2.2⟩
      intro hf
      obtain ⟨hpath, htar, hdir, hclos⟩ := hloop.2.1 hf
      refine ⟨hpath, htar, ?_, hclos⟩
      intro d' hd' hok'
      rcases List.mem_cons.mp hd' with rfl | hd'ds
      · exact absurd (hok.symm.trans hok') (by simp)
      · exact hdir d' hd'ds hok'
    | true =>
      rw [if_pos rfl]
      dsimp only
      by_cases hv : jumpPos current d ∈ st.visited
      · rw [if_pos hv]
        have hloop := ih current st hds' hcur hfuel hpne hplast hpchain
        refine ⟨hloop.1, ?_, hloop.2.2⟩
        intro hf
        obtain ⟨hpath, htar, hdir, hclos⟩ := hloop.2.1 hf
        refine ⟨hpath, htar, ?_, hclos⟩
        intro d' hd' hok'
        rcases List.mem_cons.mp hd' with rfl | hd'ds
        · exact hloop.1 _ hv
        · exact hdir d' hd'ds hok'
      · rw [if_neg hv]
        have hjtv : isValidPosition (jumpPos current d).row (jumpPos current d).col
            = true := jumpOk_valid hok
        have hlt : freeCount (st.visited ++ [jumpPos current d])
            < freeCount st.visited := freeCount_lt_append hjtv hv
        have hedge : jumpEdge board current (jumpPos current d) :=
          ⟨d, hdDA, hok, rfl⟩
        have hsub := hrec (jumpPos current d)
          ⟨st.path ++ [jumpPos current d], st.visited ++ [jumpPos current d]⟩
          (List.mem_append_right _ (List.mem_singleton.mpr rfl))
          (by dsimp only; omega)
          (by simp)
          (List.getLast?_concat _)
          (by
            rw [List.chain'_append]
            refine ⟨hpchain, List.chain'_singleton _, ?_⟩
            intro x hx y hy
            rw [hplast, Option.mem_some_iff] at hx
            simp only [List.head?_cons, Option.mem_some_iff] at hy
            rw [← hx, ← hy]
            exact hedge)
        cases hres : searchJumpPath board target fuel (jumpPos current d)
            ⟨st.path ++ [jumpPos current d], st.visited ++ [jumpPos current d]⟩ with
        | mk found st2 =>
          rw [hres] at hsub
          cases found with
          | true =>
            obtain ⟨hmono, _, htrue⟩ := hsub
            obtain ⟨ext, hpath2, hlast2, hchain2⟩ := htrue rfl
            refine ⟨?_, ?_, ?_⟩
            · intro v hv'
              exact hmono v (List.mem_append_left _ hv')
            · intro hf
              exact absurd hf (by simp)
            · intro _
              refine ⟨[jumpPos current d] ++ ext, ?_, hlast2, hchain2⟩
              rw [hpath2]
              rw [List.append_assoc]
          | false =>
            obtain ⟨hmono, hfalse, _⟩ := hsub
            obtain ⟨hpath2, htar2, hclos2⟩ := hfalse rfl
            have hpath3 : st2.path.dropLast = st.path := by
              rw [hpath2]
              exact List.dropLast_concat
            have hcur3 : current ∈ st2.visited :=
              hmono current (List.mem_append_left _ hcur)
            have hmono2 : ∀ x ∈ st.visited, x ∈ st2.visited :=
              fun x hx => hmono x (List.mem_append_left _ hx)
            have hfree2 : freeCount st2.visited
                ≤ freeCount (st.visited ++ [jumpPos current d]) :=
              freeCount_le_of_subset hmono
            have hloop := ih current ⟨st2.path.dropLast, st2.visited⟩ hds' hcur3
              (by dsimp only; omega)
              (by rw [hpath3]; exact hpne)
              (by rw [hpath3]; exact hplast)
              (by rw [hpath3]; exact hpchain)
            have hfuel1 : 1 ≤ fuel := by omega
            refine ⟨?_, ?_, ?_⟩
            · intro v hv'
              exact hloop.1 v (hmono2 v hv')
            · intro hf
              obtain ⟨hpathL, htarL, hdirL, hclosL⟩ := hloop.2.1 hf
              refine ⟨by rw [hpathL]; exact hpath3, ?_, ?_, ?_⟩
              · intro htar0
                have hjtne : jumpPos current d ≠ target := by
                  intro he
                  rw [he] at hres
                  rw [searchJumpPath_at_target hfuel1] at hres
                  exact absurd (Prod.mk.injEq _ _ _ _ ▸ hres).1 (by simp)
                have htar1 : target ∉ st.visited ++ [jumpPos current d] := by
                  intro hm
                  rcases List.mem_append.mp hm with h | h
                  · exact htar0 h
                  · rw [List.mem_singleton] at h
                    exact hjtne (h.symm)
                exact htarL (htar2 htar1)
              · intro d' hd' hok'
                rcases List.mem_cons.mp hd' with rfl | hd'ds
                · exact hloop.1 _ (hmono _
                    (List.mem_append_right _ (List.mem_singleton.mpr rfl)))
                · exact hdirL d' hd'ds hok'
              · intro u hu w hw
                by_cases hu3 : u ∈ st2.visited
                · have hwin2 : w ∈ st2.visited := by
                    by_cases hujt : u = jumpPos current d
                    · exact hclos2 u (Or.inl hujt) w hw
                    · refine hclos2 u (Or.inr ⟨hu3, ?_⟩) w hw
                      intro hm
                      rcases List.mem_append.mp hm with h | h
                      · exact hu.2 h
                      · rw [List.mem_singleton] at h
                        exact hujt h
                  exact hloop.1 w hwin2
                · exact hclosL u ⟨hu.1, hu3⟩ w hw
            · intro ht
              obtain ⟨ext, hpathE, hlastE, hchainE⟩ := hloop.2.2 ht
              refine ⟨ext, ?_, hlastE, hchainE⟩
              rw [hpathE]
              dsimp only
              rw [hpath3]

/-- Full specification of the bounded DFS `searchJumpPath`: with enough
fuel to cover every still-unvisited cell plus one, the call satisfies
`sjpConcl` (monotone visited set, failure preserves the path and closes
the jump edges of all fresh nodes, success appends a jump chain to the
target). -/
theorem searchJumpPath_spec (board : Board) (target : Position) :
    ∀ (fuel : Nat) (current : Position) (st : PathState),
      current ∈ st.visited →
      1 + freeCount st.visited ≤ fuel →
      st.path ≠ [] → st.path.getLast? = some current →
      List.Chain' (jumpEdge board) st.path →
      sjpConcl board target current st
        (searchJumpPath board target fuel current st) := by
  intro fuel
  induction fuel with
  | zero =>
    intro current st _ hfuel _ _ _
    omega
  | succ fuel ih =>
    intro current st hcur hfuel hpne hplast hpchain
    rw [searchJumpPath]
    by_cases hct : current = target
    · rw [if_pos hct]
      refine ⟨fun v hv => hv, ?_, ?_⟩
      · intro hf
        exact absurd hf (by simp)
      · intro _
        refine ⟨[], by simp, ?_, hpchain⟩
        rw [← hct]
        exact hplast
    · rw [if_neg hct]
      have hloop := sjpLoop_spec board target fuel
        (fun c st hc hf hp hl hch => ih c st hc hf hp hl hch)
        DIRECTION_ARRAY current st (fun d hd => hd) hcur (by omega)
        hpne hplast hpchain
      refine ⟨hloop.1, ?_, hloop.2.2⟩
      intro hf
      obtain ⟨hpath, htar, hdir, hclos⟩ := hloop.2.1 hf
      refine ⟨hpath, htar, ?_⟩
      intro u hu w hw
      rcases hu with rfl | hu
      · obtain ⟨d, hd, hok, rfl⟩ := hw
        exact hdir d hd hok
      · exact hclos u hu w hw

/-- Walking a jump chain that avoids the origin through a visited set
closed under the jump edges of the origin and of its fresh members stays
inside that visited set. -/
theorem reach_walk {board : Board} {origin : Position} {vis : List Position}
    (hclos : ∀ u, (u = origin ∨ (u ∈ vis ∧ u ∉ ([origin] : List Position))) →
      ∀ w, jumpEdge board u w → w ∈ vis) :
    ∀ {a b : Position}, ReachAvoid board [origin] a b →
      a = origin ∨ a ∈ vis → b = a ∨ b ∈ vis := by
  intro a b hreach
  induction hreach with
  | refl a => exact fun _ => Or.inl rfl
  | @step a b c hedge hnotin htail ih =>
    intro ha
    have ha' : a = origin ∨ (a ∈ vis ∧ a ∉ ([origin] : List Position)) := by
      rcases ha with rfl | havis
      · exact Or.inl rfl
      · by_cases hao : a = origin
        · exact Or.inl hao
        · exact Or.inr ⟨havis, fun hm => hao (List.mem_singleton.mp hm)⟩
    have hbvis : b ∈ vis := hclos a ha' b hedge
    rcases ih (Or.inr hbvis) with rfl | hc
    · exact Or.inr hbvis
    · exact Or.inr hc

/-- C1.  Move generation symmetry: on any board whose origin cell is
occupied, every destination returned by `getValidMoves` is reconstructed
by `findJumpPath` as a path that starts at the origin, ends at that
exact destination, and whose every consecutive pair of cells is either
an orthogonal step onto an empty cell or a single orthogonal jump over
an occupied cell onto an empty cell of that board. -/
theorem moveGen_path_reconstruction (board : Board) (origin : Position)
    (pl : Player)
    (hocc : cellVal? board origin.row origin.col = some (some pl)) :
    ∀ dest ∈ getValidMoves board origin,
      (findJumpPath board origin dest).head? = some origin ∧
      (findJumpPath board origin dest).getLast? = some dest ∧
      List.Chain' (moveStep board) (findJumpPath board origin dest) := by
  intro dest hdest
  have hde := getValidMoves_all_empty board origin dest hdest
  have hne : dest ≠ origin := by
    intro he
    rw [he] at hde
    rw [isCellEmpty, hocc] at hde
    simp at hde
  rw [findJumpPath]
  by_cases hadj : isAdjacentMove origin dest = true
  · rw [if_pos hadj]
    refine ⟨rfl, by simp, ?_⟩
    refine List.chain'_cons.mpr ⟨Or.inl ⟨hadj, hde⟩, List.chain'_singleton _⟩
  · rw [if_neg hadj]
    have hreach : ReachAvoid board [origin] origin dest := by
      rcases getValidMoves_adj_or_reach board origin pl hocc dest hdest with
        h | h
      · exact absurd h hadj
      · exact h
    have h65 : dfsFuel = 65 := rfl
    have hfc : freeCount [origin] ≤ 64 := freeCount_le_card _
    have hspec := searchJumpPath_spec board dest dfsFuel origin
      ⟨[origin], [origin]⟩ (List.mem_singleton.mpr rfl) (by dsimp only; omega)
      (by simp) rfl (List.chain'_singleton _)
    cases hres : searchJumpPath board dest dfsFuel origin
        ⟨[origin], [origin]⟩ with
    | mk found st =>
      rw [hres] at hspec
      cases found with
      | false =>
        obtain ⟨_, hfalse, _⟩ := hspec
        obtain ⟨_, htar, hclos⟩ := hfalse rfl
        have hwalk := reach_walk hclos hreach (Or.inl rfl)
        rcases hwalk with h | h
        · exact absurd h hne
        · exact absurd h (htar (fun hm => hne (List.mem_singleton.mp hm)))
      | true =>
        obtain ⟨_, _, htrue⟩ := hspec
        obtain ⟨ext, hpath, hlast, hchain⟩ := htrue rfl
        dsimp only at hpath hlast hchain ⊢
        rw [List.singleton_append] at hpath
        refine ⟨?_, hlast, ?_⟩
        · rw [hpath]
          rfl
        · exact hchain.imp (fun a b h => Or.inr h)

/-- Witness for C1 at a concrete input: on `jumpBoard` the piece at
(3,3) can jump to (3,5), and `findJumpPath` reconstructs a valid path
from (3,3) to (3,5). -/
theorem moveGen_path_reconstruction_witness :
    cellVal? jumpBoard (3 : Int) (3 : Int) = some (some .A) ∧
    (⟨3, 5⟩ : Position) ∈ getValidMoves jumpBoard ⟨3, 3⟩ ∧
    ((findJumpPath jumpBoard ⟨3, 3⟩ ⟨3, 5⟩).head? = some ⟨3, 3⟩ ∧
     (findJumpPath jumpBoard ⟨3, 3⟩ ⟨3, 5⟩).getLast? = some ⟨3, 5⟩ ∧
     List.Chain' (moveStep jumpBoard) (findJumpPath jumpBoard ⟨3, 3⟩ ⟨3, 5⟩)) :=
  ⟨by decide, by decide,
    moveGen_path_reconstruction jumpBoard ⟨3, 3⟩ .A (by decide) ⟨3, 5⟩
      (by decide)⟩

end Corners
